import Mathlib

/-!
# keyq: spectral peak picking and pitch mapping

A shallow embedding of `keyqExtension/DSP/MusicNote.hpp` and
`keyqExtension/DSP/keyqExtensionDSPKernel.hpp`.

Conventions of the embedding:

* `float` and `double` values live in a linearly ordered field `α` with a floor
  function (`ℚ` for evaluation, `ℝ` for the statements "over the reals");
  rounding error, infinities and NaN are not modelled.
* `int` is `Int` (no wrap-around: the note numbers reached from finite floats
  are far inside the 32-bit range), `size_t` is `Nat`, `UInt32` is `Nat` reduced
  modulo `2 ^ 32` where the source adds.
* C++ `/` and `%` on `int` truncate towards zero: `Int.tdiv` and `Int.tmod`.
* `std::vector<float>` is `List α`; an element access is `List.getD _ _ 0`, which
  agrees with the source whenever the index is in bounds.
* The `<cmath>` functions and the Accelerate (vDSP) routines that are not part of
  the repository are parameters: `CMath` and `VDSP`. `CMath.real` gives the
  `<cmath>` functions their meaning over the reals.
* Statements about `detectPeaks` hold for every `CMath` and every ordered field;
  statements about notes "over the reals" are made for `ℝ` with `CMath.real`.
-/

namespace Keyq

/-! ## External functions -/

/-- The functions of `<cmath>` that the sources call on floating-point values. -/
structure CMath (α : Type) where
  /-- The function `std::log2`. -/
  log2 : α → α
  /-- The function `std::log10`. -/
  log10 : α → α
  /-- The function `std::pow`. -/
  pow : α → α → α

/-- The `<cmath>` functions over the reals. -/
noncomputable def CMath.real : CMath ℝ where
  log2 := Real.logb 2
  log10 := Real.logb 10
  pow := fun x y => x ^ y

/-- The Accelerate routines whose code is outside the repository. -/
structure VDSP (α : Type) where
  /-- Whether `vDSP_create_fftsetup log2n FFT_RADIX2` returns a non-null setup. -/
  vDSP_create_fftsetup : Nat → Bool
  /-- Coefficient `i` of `vDSP_hann_window _ n vDSP_HANN_NORM`. -/
  vDSP_hann_window : Nat → Nat → α
  /-- The in-place forward transform `vDSP_fft_zrip setup z 1 log2n FFT_FORWARD`
  on the split-complex pair `(realp, imagp)`. -/
  vDSP_fft_zrip : Nat → List α × List α → List α × List α

/-- The routine `vDSP_ctoz c 2 z 1 n`: element `i` of the real part is `c[2 i]`, of the
imaginary part `c[2 i + 1]`. -/
def vDSP_ctoz {α : Type} [Zero α] (c : List α) (n : Nat) : List α × List α :=
  ((List.range n).map (fun i => c.getD (2 * i) 0),
   (List.range n).map (fun i => c.getD (2 * i + 1) 0))

/-- The routine `vDSP_zvmags z 1 out 1 n`: squared magnitudes of the first `n` elements. -/
def vDSP_zvmags {α : Type} [Zero α] [Add α] [Mul α] (z : List α × List α) (n : Nat) : List α :=
  (List.range n).map (fun i => z.1.getD i 0 * z.1.getD i 0 + z.2.getD i 0 * z.2.getD i 0)

/-- The routine `vDSP_vsmul a 1 &b out 1 n`: the first `n` elements times the scalar. -/
def vDSP_vsmul {α : Type} [Zero α] [Mul α] (a : List α) (b : α) (n : Nat) : List α :=
  (List.range n).map (fun i => a.getD i 0 * b)

/-- The call `std::vector::resize n value`. -/
def resize {α : Type} (l : List α) (n : Nat) (value : α) : List α :=
  l.take n ++ List.replicate (n - l.length) value

/-- A write of `src` through `dst.data()`: the leading elements of `dst` are replaced. -/
def overwrite {α : Type} (dst src : List α) : List α :=
  src ++ dst.drop src.length

/-- The sort `std::sort first last comp`, as insertion sort: `a` may stand before `b`
when `comp b a` is false. Which of two elements that `comp` does not separate comes
first is left open by the standard; nothing below depends on it. -/
def stdSort {β : Type} (comp : β → β → Bool) (l : List β) : List β :=
  l.insertionSort (fun a b => comp b a = false)

/-! ## MusicNote.hpp -/

section Note

variable {α : Type} [LinearOrderedField α] [FloorRing α]

/-- The function `std::round`: to the nearest integer, halfway cases away from zero. -/
def stdRound (x : α) : α :=
  if 0 ≤ x then ((⌊x + 1 / 2⌋ : Int) : α) else ((⌈x - 1 / 2⌉ : Int) : α)

/-- The conversion `static_cast<int>` of a floating-point value: truncation. -/
def toInt (x : α) : Int :=
  if 0 ≤ x then ⌊x⌋ else ⌈x⌉

end Note

/-- The record `MusicNote`. -/
structure MusicNote (α : Type) where
  /-- Frequency in Hz. -/
  frequency : α
  /-- MIDI note number (0-127). -/
  midiNote : Int
  /-- Octave number. -/
  octave : Int
  /-- Index 0-11 (C, C#, D, D#, E, F, F#, G, G#, A, A#, B). -/
  noteIndex : Int
  /-- Deviation from perfect pitch in cents. -/
  centsDeviation : α
  /-- FFT magnitude in dB. -/
  magnitude : α

/-- The table `noteNames` of `MusicNote::noteName`. -/
def noteNames : List String :=
  ["C", "C#", "D", "D#", "E", "F"] ++ ["F#", "G", "G#", "A", "A#", "B"]

/-- The method `MusicNote::noteName`; `none` when `noteNames[noteIndex]` is outside the
table, where the source reads out of bounds. -/
def MusicNote.noteName {α : Type} (note : MusicNote α) : Option String :=
  if 0 ≤ note.noteIndex then
    (noteNames[note.noteIndex.toNat]?).map (fun s => s ++ toString note.octave)
  else none

section Note

variable {α : Type} [LinearOrderedField α] [FloorRing α]

/-- The function `MusicNote::frequencyToMidi`. -/
def MusicNote.frequencyToMidi (cm : CMath α) (frequency referencePitch : α) : α :=
  69 + 12 * cm.log2 (frequency / referencePitch)

/-- The function `MusicNote::midiToFrequency`. -/
def MusicNote.midiToFrequency (cm : CMath α) (midiNote : Int) (referencePitch : α) : α :=
  referencePitch * cm.pow 2 (((midiNote - 69 : Int) : α) / 12)

/-- The function `MusicNote::fromFrequency`. -/
def MusicNote.fromFrequency (cm : CMath α) (frequency magnitude referencePitch : α) :
    MusicNote α :=
  let midiFloat := MusicNote.frequencyToMidi cm frequency referencePitch
  let midiNote := toInt (stdRound midiFloat)
  { frequency := frequency
    magnitude := magnitude
    midiNote := midiNote
    centsDeviation := (midiFloat - (midiNote : α)) * 100
    octave := Int.tdiv midiNote 12 - 1
    noteIndex := Int.tmod midiNote 12 }

end Note

/-- The record `DetectedPeak`. -/
structure DetectedPeak (α : Type) where
  /-- The bin of the spectrum. -/
  binIndex : Nat
  /-- The frequency of the bin in Hz. -/
  frequency : α
  /-- The magnitude of the bin in dB. -/
  magnitude : α
  /-- The note of the frequency. -/
  note : MusicNote α

/-! ## keyqExtensionDSPKernel.hpp -/

/-- The constant `kFFTSize`. -/
def kFFTSize : Nat := 4096

/-- The constant `kFFTSizeOver2`. -/
def kFFTSizeOver2 : Nat := kFFTSize / 2

/-- The constant `kMaxPeaks`. -/
def kMaxPeaks : Nat := 10

/-- The constant `kMinBin` of `detectPeaks`. -/
def kMinBin : Nat := 2

section Kernel

variable {α : Type} [LinearOrderedField α] [FloorRing α]

/-- The constant `kPeakThresholdDB`. -/
def kPeakThresholdDB : α := -30

/-- The constant `kReferencePitch`. -/
def kReferencePitch : α := 440

end Kernel

/-- The member variables of `keyqExtensionDSPKernel`; `mFFTSetup` records whether the
setup handle is non-null. The defaults are the in-class initialisers. -/
structure keyqExtensionDSPKernel (α : Type) [LinearOrderedField α] where
  mSampleRate : α := 44100
  mGain : α := 1
  mBypassed : Bool := false
  mMaxFramesToRender : Nat := 1024
  mFFTSetup : Bool := false
  mLog2N : Nat := 0
  mCircularBuffer : List α := []
  mFFTInputBuffer : List α := []
  mWindow : List α := []
  mFFTMagnitudes : List α := []
  mCircularBufferWriteIndex : Nat := 0
  mFramesSinceLastFFT : Nat := 0
  mDetectedPeaks : List (DetectedPeak α) := []

section Kernel

variable {α : Type} [LinearOrderedField α] [FloorRing α]

/-- The method `setupFFT`. -/
def keyqExtensionDSPKernel.setupFFT (v : VDSP α) (k : keyqExtensionDSPKernel α) :
    keyqExtensionDSPKernel α :=
  { k with
    mLog2N := Nat.log2 kFFTSize
    mFFTSetup := v.vDSP_create_fftsetup (Nat.log2 kFFTSize)
    mCircularBuffer := resize k.mCircularBuffer kFFTSize 0
    mFFTInputBuffer := resize k.mFFTInputBuffer kFFTSize 0
    mWindow := (List.range kFFTSize).map (v.vDSP_hann_window kFFTSize)
    mFFTMagnitudes := resize k.mFFTMagnitudes kFFTSizeOver2 (-160)
    mCircularBufferWriteIndex := 0
    mFramesSinceLastFFT := 0 }

/-- The method `teardownFFT`. -/
def keyqExtensionDSPKernel.teardownFFT (k : keyqExtensionDSPKernel α) :
    keyqExtensionDSPKernel α :=
  if k.mFFTSetup then { k with mFFTSetup := false } else k

/-- The method `initialize`. -/
def keyqExtensionDSPKernel.initialize (v : VDSP α) (k : keyqExtensionDSPKernel α)
    (inputChannelCount outputChannelCount : Int) (inSampleRate : α) :
    keyqExtensionDSPKernel α :=
  keyqExtensionDSPKernel.setupFFT v { k with mSampleRate := inSampleRate }

/-- The method `deInitialize`. -/
def keyqExtensionDSPKernel.deInitialize (k : keyqExtensionDSPKernel α) :
    keyqExtensionDSPKernel α :=
  k.teardownFFT

/-- The method `setBypass`. -/
def keyqExtensionDSPKernel.setBypass (k : keyqExtensionDSPKernel α) (shouldBypass : Bool) :
    keyqExtensionDSPKernel α :=
  { k with mBypassed := shouldBypass }

/-- The index `readIndex` of the copy loop of `performFFT`. -/
def keyqExtensionDSPKernel.readIndex (k : keyqExtensionDSPKernel α) (i : Nat) : Nat :=
  (k.mCircularBufferWriteIndex + i) % kFFTSize

/-- The chronological read of the copy loop of `performFFT`, before the window is
applied: element `i` is `mCircularBuffer[readIndex]`. -/
def keyqExtensionDSPKernel.snapshot (k : keyqExtensionDSPKernel α) : List α :=
  (List.range kFFTSize).map (fun i => k.mCircularBuffer.getD (k.readIndex i) 0)

/-- The method `performFFT`. -/
def keyqExtensionDSPKernel.performFFT (v : VDSP α) (cm : CMath α)
    (k : keyqExtensionDSPKernel α) : keyqExtensionDSPKernel α :=
  if k.mFFTSetup = false then k
  else
    let input := (List.range kFFTSize).map
      (fun i => k.mCircularBuffer.getD (k.readIndex i) 0 * k.mWindow.getD i 0)
    let splitComplex := vDSP_ctoz input kFFTSizeOver2
    let transformed := v.vDSP_fft_zrip k.mLog2N splitComplex
    let mags := overwrite k.mFFTMagnitudes (vDSP_zvmags transformed kFFTSizeOver2)
    let scale : α := 1 / (kFFTSize : α)
    let scaled := overwrite mags (vDSP_vsmul mags scale kFFTSizeOver2)
    { k with
      mFFTInputBuffer := overwrite k.mFFTInputBuffer input
      mFFTMagnitudes := scaled.map (fun mag => 20 * cm.log10 (max mag (1 / 100000000))) }

/-- The frequency of bin `i`, as computed in `detectPeaks`. -/
def keyqExtensionDSPKernel.binFrequency (k : keyqExtensionDSPKernel α) (i : Nat) : α :=
  ((i : α) * k.mSampleRate) / (kFFTSize : α)

/-- The body of the loop of `detectPeaks` at bin `i`: the peak pushed, if any. -/
def keyqExtensionDSPKernel.peakAt (cm : CMath α) (k : keyqExtensionDSPKernel α) (i : Nat) :
    Option (DetectedPeak α) :=
  let mag := k.mFFTMagnitudes.getD i 0
  if mag > kPeakThresholdDB ∧
      mag ≥ k.mFFTMagnitudes.getD (i - 1) 0 ∧
      mag ≥ k.mFFTMagnitudes.getD (i + 1) 0 then
    let freq := k.binFrequency i
    if freq < 20 ∨ freq > 16384 then none
    else
      some { binIndex := i
             frequency := freq
             magnitude := mag
             note := MusicNote.fromFrequency cm freq mag kReferencePitch }
  else none

/-- The method `detectPeaks`: the loop runs over `kMinBin + 1 ≤ i < kFFTSizeOver2 - 1`. -/
def keyqExtensionDSPKernel.detectPeaks (cm : CMath α) (k : keyqExtensionDSPKernel α) :
    keyqExtensionDSPKernel α :=
  let found := (List.range' (kMinBin + 1) (kFFTSizeOver2 - 1 - (kMinBin + 1))).filterMap
    (k.peakAt cm)
  let sorted := stdSort (fun a b => decide (a.magnitude > b.magnitude)) found
  { k with
    mDetectedPeaks := if sorted.length > kMaxPeaks then sorted.take kMaxPeaks else sorted }

/-- One iteration of the frame loop of `process`, on the circular buffer. -/
def keyqExtensionDSPKernel.pushSample (k : keyqExtensionDSPKernel α) (sample : α) :
    keyqExtensionDSPKernel α :=
  { k with
    mCircularBuffer := k.mCircularBuffer.set k.mCircularBufferWriteIndex sample
    mCircularBufferWriteIndex := (k.mCircularBufferWriteIndex + 1) % kFFTSize }

/-- The method `process`: the new state and what was written to the output buffers.
A buffer is the list of the samples behind its pointer, of which the first
`frameCount` are read; the call is meaningful when there is at least one channel and
every channel holds at least `frameCount` samples. -/
def keyqExtensionDSPKernel.process (v : VDSP α) (cm : CMath α) (k : keyqExtensionDSPKernel α)
    (inputBuffers : List (List α)) (frameCount : Nat) :
    keyqExtensionDSPKernel α × List (List α) :=
  if k.mBypassed then
    (k, inputBuffers.map (fun channel => channel.take frameCount))
  else
    let pushed := ((inputBuffers.headD []).take frameCount).foldl
      keyqExtensionDSPKernel.pushSample k
    let output := inputBuffers.map
      (fun channel => (channel.take frameCount).map (fun x => x * k.mGain))
    let counted := { pushed with
      mFramesSinceLastFFT := (pushed.mFramesSinceLastFFT + frameCount) % 2 ^ 32 }
    if counted.mFramesSinceLastFFT ≥ kFFTSize / 8 then
      (keyqExtensionDSPKernel.detectPeaks cm
        (keyqExtensionDSPKernel.performFFT v cm { counted with mFramesSinceLastFFT := 0 }),
       output)
    else (counted, output)

/-- A sequence of `process` calls, each given by its input buffers and frame count. -/
def keyqExtensionDSPKernel.processAll (v : VDSP α) (cm : CMath α)
    (k : keyqExtensionDSPKernel α) (calls : List (List (List α) × Nat)) :
    keyqExtensionDSPKernel α :=
  calls.foldl (fun s call => (s.process v cm call.1 call.2).1) k

/-- The samples that a sequence of `process` calls takes from the first channel. -/
def pushedSamples (calls : List (List (List α) × Nat)) : List α :=
  (calls.map (fun call => (call.1.headD []).take call.2)).flatten

/-- The method `getFFTMagnitudesCount`. -/
def keyqExtensionDSPKernel.getFFTMagnitudesCount (k : keyqExtensionDSPKernel α) : Nat :=
  k.mFFTMagnitudes.length % 2 ^ 32

/-- The method `getFFTMagnitude`. -/
def keyqExtensionDSPKernel.getFFTMagnitude (k : keyqExtensionDSPKernel α) (index : Nat) : α :=
  if h : index < k.mFFTMagnitudes.length then k.mFFTMagnitudes[index] else 0

/-- The method `getPeakCount`. -/
def keyqExtensionDSPKernel.getPeakCount (k : keyqExtensionDSPKernel α) : Nat :=
  k.mDetectedPeaks.length % 2 ^ 32

/-- The method `getPeakFrequency`. -/
def keyqExtensionDSPKernel.getPeakFrequency (k : keyqExtensionDSPKernel α) (index : Nat) : α :=
  if h : index < k.mDetectedPeaks.length then (k.mDetectedPeaks[index]).frequency else 0

/-- The method `getPeakMagnitude`. -/
def keyqExtensionDSPKernel.getPeakMagnitude (k : keyqExtensionDSPKernel α) (index : Nat) : α :=
  if h : index < k.mDetectedPeaks.length then (k.mDetectedPeaks[index]).magnitude else 0

/-- The method `getPeakMidiNote`. -/
def keyqExtensionDSPKernel.getPeakMidiNote (k : keyqExtensionDSPKernel α) (index : Nat) : Int :=
  if h : index < k.mDetectedPeaks.length then (k.mDetectedPeaks[index]).note.midiNote else 0

/-- The method `getPeakNoteIndex`. -/
def keyqExtensionDSPKernel.getPeakNoteIndex (k : keyqExtensionDSPKernel α) (index : Nat) : Int :=
  if h : index < k.mDetectedPeaks.length then (k.mDetectedPeaks[index]).note.noteIndex else 0

/-- The method `getPeakOctave`. -/
def keyqExtensionDSPKernel.getPeakOctave (k : keyqExtensionDSPKernel α) (index : Nat) : Int :=
  if h : index < k.mDetectedPeaks.length then (k.mDetectedPeaks[index]).note.octave else 0

/-- The method `getPeakCents`. -/
def keyqExtensionDSPKernel.getPeakCents (k : keyqExtensionDSPKernel α) (index : Nat) : α :=
  if h : index < k.mDetectedPeaks.length then (k.mDetectedPeaks[index]).note.centsDeviation
  else 0

end Kernel

/-! ## Notions used in the statements -/

section Statements

variable {α : Type} [LinearOrderedField α] [FloorRing α]

/-- Bin `i` passes the tests of `detectPeaks`: above the threshold, not below either
neighbour, and with its frequency in the audible band from 20 Hz to 16384 Hz. -/
def keyqExtensionDSPKernel.qualifies (k : keyqExtensionDSPKernel α) (i : Nat) : Prop :=
  k.mFFTMagnitudes.getD i 0 > kPeakThresholdDB ∧
  k.mFFTMagnitudes.getD i 0 ≥ k.mFFTMagnitudes.getD (i - 1) 0 ∧
  k.mFFTMagnitudes.getD i 0 ≥ k.mFFTMagnitudes.getD (i + 1) 0 ∧
  20 ≤ k.binFrequency i ∧ k.binFrequency i ≤ 16384

instance (k : keyqExtensionDSPKernel α) (i : Nat) : Decidable (k.qualifies i) := by
  unfold keyqExtensionDSPKernel.qualifies
  infer_instance

/-- The set of the bins that the loop of `detectPeaks` visits and that pass its tests. -/
def keyqExtensionDSPKernel.qualifyingBins (k : keyqExtensionDSPKernel α) : Finset Nat :=
  (Finset.Ico (kMinBin + 1) (kFFTSizeOver2 - 1)).filter (fun i => k.qualifies i)

/-- The record that `detectPeaks` pushes for bin `i`. -/
def keyqExtensionDSPKernel.peakOfBin (cm : CMath α) (k : keyqExtensionDSPKernel α) (i : Nat) :
    DetectedPeak α :=
  { binIndex := i
    frequency := k.binFrequency i
    magnitude := k.mFFTMagnitudes.getD i 0
    note := MusicNote.fromFrequency cm (k.binFrequency i) (k.mFFTMagnitudes.getD i 0)
      kReferencePitch }

/-- The qualifying bins in the order in which the loop of `detectPeaks` meets them. -/
def keyqExtensionDSPKernel.qualifyingList (k : keyqExtensionDSPKernel α) : List Nat :=
  (List.range' (kMinBin + 1) (kFFTSizeOver2 - 1 - (kMinBin + 1))).filter (fun i => k.qualifies i)

/-- The order that `std::sort` establishes under the comparison of `detectPeaks`:
`a` may stand before `b` when `b.magnitude > a.magnitude` is false. -/
def peakOrder (a b : DetectedPeak α) : Prop :=
  decide (b.magnitude > a.magnitude) = false

instance peakOrder_decidable : DecidableRel (peakOrder : DetectedPeak α → DetectedPeak α → Prop) :=
  fun a b => by
    unfold peakOrder
    infer_instance

/-- The sizes of the peak list and of the spectrum in the states that the kernel
reaches from a newly constructed one. -/
def keyqExtensionDSPKernel.sized (k : keyqExtensionDSPKernel α) : Prop :=
  k.mDetectedPeaks.length ≤ kMaxPeaks ∧ k.mFFTMagnitudes.length ≤ kFFTSizeOver2

/-- The test of `process` on the frame counter: whether a call with `frameCount`
frames runs `performFFT` and `detectPeaks`. -/
def keyqExtensionDSPKernel.runsAnalysis (k : keyqExtensionDSPKernel α) (frameCount : Nat) :
    Bool :=
  !k.mBypassed && decide ((k.mFramesSinceLastFFT + frameCount) % 2 ^ 32 ≥ kFFTSize / 8)

/-- The number of analysis cycles (`performFFT` then `detectPeaks`) that a sequence of
`process` calls runs. -/
def keyqExtensionDSPKernel.analysisCycles (v : VDSP α) (cm : CMath α) :
    keyqExtensionDSPKernel α → List (List (List α) × Nat) → Nat
  | _, [] => 0
  | k, call :: calls =>
    (if k.runsAnalysis call.2 then 1 else 0)
      + keyqExtensionDSPKernel.analysisCycles v cm (k.process v cm call.1 call.2).1 calls

/-- The number of frames that a sequence of `process` calls delivers. -/
def deliveredFrames {β : Type} (calls : List (List (List β) × Nat)) : Nat :=
  (calls.map (fun call => call.2)).sum

/-- The conversion to decibels of the last loop of `performFFT`. -/
def decibels (cm : CMath α) (mag : α) : α :=
  20 * cm.log10 (max mag (1 / 100000000))

/-- The contents of `mFFTMagnitudes` in `performFFT` after `vDSP_vsmul`, before the
conversion to decibels: the scaled squared magnitudes. -/
def keyqExtensionDSPKernel.scaledMagnitudes (v : VDSP α) (k : keyqExtensionDSPKernel α) :
    List α :=
  let input := (List.range kFFTSize).map
    (fun i => k.mCircularBuffer.getD (k.readIndex i) 0 * k.mWindow.getD i 0)
  let transformed := v.vDSP_fft_zrip k.mLog2N (vDSP_ctoz input kFFTSizeOver2)
  let mags := overwrite k.mFFTMagnitudes (vDSP_zvmags transformed kFFTSizeOver2)
  overwrite mags (vDSP_vsmul mags (1 / (kFFTSize : α)) kFFTSizeOver2)

/-- A newly constructed kernel (sample rate 44100 Hz) whose spectrum of `kFFTSizeOver2`
bins holds -6 dB in the `width` bins from `first` on and -160 dB in every other bin. -/
def plateauKernel (α : Type) [LinearOrderedField α] (first width : Nat) :
    keyqExtensionDSPKernel α :=
  { mFFTMagnitudes := (List.range kFFTSizeOver2).map
      (fun i => if first ≤ i ∧ i < first + width then -6 else -160) }

/-- A stand-in for the Accelerate routines, for the statements that need some
instance of them: the setup is created, the window is rectangular and the transform
is left as the identity. -/
def standInVDSP (α : Type) [One α] : VDSP α :=
  { vDSP_create_fftsetup := fun _ => true
    vDSP_hann_window := fun _ _ => 1
    vDSP_fft_zrip := fun _ z => z }

/-- A newly constructed kernel after `initialize` at 44100 Hz, with the stand-in
routines: its transform setup is present. -/
def runningKernel (α : Type) [LinearOrderedField α] : keyqExtensionDSPKernel α :=
  keyqExtensionDSPKernel.initialize (standInVDSP α) {} 1 1 44100

/-- A newly constructed kernel (sample rate 44100 Hz) whose spectrum of `kFFTSizeOver2`
bins holds -6 dB in bin `line` and -160 dB in every other bin. -/
def singleLineKernel (α : Type) [LinearOrderedField α] (line : Nat) :
    keyqExtensionDSPKernel α :=
  { mFFTMagnitudes := (List.range kFFTSizeOver2).map (fun i => if i = line then -6 else -160) }

end Statements

/-! ## Rounding -/

section RoundingLemmas

variable {α : Type} [LinearOrderedField α] [FloorRing α]

theorem toInt_intCast (z : Int) : toInt (z : α) = z := by
  unfold toInt
  split <;> simp

theorem toInt_stdRound (x : α) :
    toInt (stdRound x) = if 0 ≤ x then ⌊x + 1 / 2⌋ else ⌈x - 1 / 2⌉ := by
  unfold stdRound
  split <;> simp [toInt_intCast]

theorem toInt_stdRound_intCast (z : Int) : toInt (stdRound (z : α)) = z := by
  rw [toInt_stdRound]
  split
  · rw [Int.floor_eq_iff]
    constructor <;> linarith
  · rw [Int.ceil_eq_iff]
    constructor <;> linarith

theorem abs_sub_toInt_stdRound_le (x : α) : |x - (toInt (stdRound x) : α)| ≤ 1 / 2 := by
  rw [toInt_stdRound, abs_le]
  split
  · have h1 := Int.floor_le (x + 1 / 2)
    have h2 := Int.lt_floor_add_one (x + 1 / 2)
    constructor <;> linarith
  · have h1 := Int.le_ceil (x - 1 / 2)
    have h2 := Int.ceil_lt_add_one (x - 1 / 2)
    constructor <;> linarith

theorem abs_sub_toInt_stdRound_le_abs_sub (x : α) (z : Int) :
    |x - (toInt (stdRound x) : α)| ≤ |x - (z : α)| := by
  have h := abs_sub_toInt_stdRound_le x
  by_cases hz : z = toInt (stdRound x)
  · rw [hz]
  · have h1 : (1 : α) ≤ |((toInt (stdRound x) - z : Int) : α)| := by
      rw [← Int.cast_abs]
      have : (1 : Int) ≤ |toInt (stdRound x) - z| := Int.one_le_abs (fun h0 => hz (by omega))
      exact_mod_cast this
    have h2 : ((toInt (stdRound x) - z : Int) : α)
        = (x - (z : α)) - (x - (toInt (stdRound x) : α)) := by
      push_cast
      ring
    rw [h2] at h1
    have h3 := abs_sub (x - (z : α)) (x - (toInt (stdRound x) : α))
    linarith

end RoundingLemmas

/-! ## Pitch mapping over the reals -/

theorem frequencyToMidi_midiToFrequency (n : Int) (r : ℝ) (hr : 0 < r) :
    MusicNote.frequencyToMidi CMath.real (MusicNote.midiToFrequency CMath.real n r) r
      = (n : ℝ) := by
  unfold MusicNote.frequencyToMidi MusicNote.midiToFrequency
  simp only [CMath.real]
  rw [mul_div_cancel_left₀ _ (ne_of_gt hr), Real.logb_rpow (by norm_num) (by norm_num)]
  push_cast
  ring

theorem logb_two_inv_256 : Real.logb 2 (1 / 256 : ℝ) = -8 := by
  have h : (1 / 256 : ℝ) = (2 : ℝ) ^ (-8 : ℝ) := by
    rw [Real.rpow_neg (by norm_num)]
    norm_num
  rw [h, Real.logb_rpow (by norm_num) (by norm_num)]

theorem frequencyToMidi_low : MusicNote.frequencyToMidi CMath.real (55 / 32) 440 = -27 := by
  unfold MusicNote.frequencyToMidi
  simp only [CMath.real]
  rw [show ((55 / 32 : ℝ) / 440) = 1 / 256 by norm_num, logb_two_inv_256]
  norm_num

theorem midiNote_low (mag : ℝ) :
    (MusicNote.fromFrequency CMath.real (55 / 32) mag 440).midiNote = -27 := by
  simp only [MusicNote.fromFrequency, frequencyToMidi_low]
  have h := toInt_stdRound_intCast (α := ℝ) (-27)
  simpa using h

/-- C7: over the reals, for every integer note number `n` and positive reference pitch
`r`, `frequencyToMidi (midiToFrequency n r) r` is `n`, and the note that `fromFrequency`
builds from `midiToFrequency n r` has `midiNote = n` and `centsDeviation = 0`; at
`n = 69` the frequency is `r` itself, which maps to note 69, note class 9 (the name
"A") and octave 4. -/
theorem note_round_trip (n : Int) (r mag : ℝ) (hr : 0 < r) :
    MusicNote.frequencyToMidi CMath.real (MusicNote.midiToFrequency CMath.real n r) r
      = (n : ℝ) ∧
    (MusicNote.fromFrequency CMath.real
      (MusicNote.midiToFrequency CMath.real n r) mag r).midiNote = n ∧
    (MusicNote.fromFrequency CMath.real
      (MusicNote.midiToFrequency CMath.real n r) mag r).centsDeviation = 0 ∧
    MusicNote.midiToFrequency CMath.real 69 r = r ∧
    (MusicNote.fromFrequency CMath.real r mag r).midiNote = 69 ∧
    (MusicNote.fromFrequency CMath.real r mag r).noteIndex = 9 ∧
    (MusicNote.fromFrequency CMath.real r mag r).octave = 4 ∧
    (MusicNote.fromFrequency CMath.real r mag r).noteName = some "A4" := by
  have hn := frequencyToMidi_midiToFrequency n r hr
  have h69 : MusicNote.midiToFrequency CMath.real 69 r = r := by
    simp [MusicNote.midiToFrequency, CMath.real]
  have hr69 : MusicNote.frequencyToMidi CMath.real r r = ((69 : Int) : ℝ) := by
    have h := frequencyToMidi_midiToFrequency 69 r hr
    rwa [h69] at h
  have hm : (MusicNote.fromFrequency CMath.real r mag r).midiNote = 69 := by
    simp only [MusicNote.fromFrequency, hr69]
    exact toInt_stdRound_intCast 69
  refine ⟨hn, ?_, ?_, h69, hm, ?_, ?_, ?_⟩
  · simp only [MusicNote.fromFrequency, hn]
    exact toInt_stdRound_intCast n
  · simp only [MusicNote.fromFrequency, hn, toInt_stdRound_intCast]
    ring
  · have h : (MusicNote.fromFrequency CMath.real r mag r).noteIndex
        = Int.tmod (MusicNote.fromFrequency CMath.real r mag r).midiNote 12 := rfl
    rw [h, hm]
    decide
  · have h : (MusicNote.fromFrequency CMath.real r mag r).octave
        = Int.tdiv (MusicNote.fromFrequency CMath.real r mag r).midiNote 12 - 1 := rfl
    rw [h, hm]
    decide
  · have h1 : (MusicNote.fromFrequency CMath.real r mag r).noteIndex
        = Int.tmod (MusicNote.fromFrequency CMath.real r mag r).midiNote 12 := rfl
    have h2 : (MusicNote.fromFrequency CMath.real r mag r).octave
        = Int.tdiv (MusicNote.fromFrequency CMath.real r mag r).midiNote 12 - 1 := rfl
    unfold MusicNote.noteName
    rw [h1, h2, hm]
    decide

/-- Witness of `note_round_trip`: note 60 at the reference pitch 440 Hz. -/
theorem note_round_trip_witness :
    (0 : ℝ) < 440 ∧
    (MusicNote.fromFrequency CMath.real
      (MusicNote.midiToFrequency CMath.real 60 440) 0 440).midiNote = 60 ∧
    (MusicNote.fromFrequency CMath.real
      (MusicNote.midiToFrequency CMath.real 60 440) 0 440).centsDeviation = 0 :=
  ⟨by norm_num, (note_round_trip 60 440 0 (by norm_num)).2.1,
    (note_round_trip 60 440 0 (by norm_num)).2.2.1⟩

/-- C8: at the frequency 1.71875 Hz with the reference pitch 440 Hz the fractional note
number is exactly -27; `fromFrequency` returns `midiNote = -27` and, by the truncating
`midiNote / 12 - 1`, `octave = -3`, whereas `floor (midiNote / 12) - 1` is `-4`. -/
theorem octave_of_negative_note :
    (MusicNote.fromFrequency CMath.real (55 / 32) 0 440).midiNote = -27 ∧
    (MusicNote.fromFrequency CMath.real (55 / 32) 0 440).octave = -3 ∧
    ⌊(((MusicNote.fromFrequency CMath.real (55 / 32) 0 440).midiNote : Int) : ℝ) / 12⌋ - 1
      = -4 := by
  have hm := midiNote_low 0
  have h : (MusicNote.fromFrequency CMath.real (55 / 32) 0 440).octave
      = Int.tdiv (MusicNote.fromFrequency CMath.real (55 / 32) 0 440).midiNote 12 - 1 := rfl
  refine ⟨hm, ?_, ?_⟩
  · rw [h, hm]
    decide
  · rw [hm]
    have : ⌊(((-27 : Int) : ℝ)) / 12⌋ = -3 := by
      rw [Int.floor_eq_iff]
      constructor <;> norm_num
    rw [this]
    norm_num

/-- C9: at the frequency 1.71875 Hz with the reference pitch 440 Hz `fromFrequency`
returns `midiNote = -27` and, by the truncating `midiNote % 12`, `noteIndex = -3`, which
is outside `0..11` (the mathematical `-27 mod 12` is `9`), so that the table lookup of
`noteName` is out of bounds. -/
theorem noteIndex_of_negative_note :
    (MusicNote.fromFrequency CMath.real (55 / 32) 0 440).midiNote = -27 ∧
    (MusicNote.fromFrequency CMath.real (55 / 32) 0 440).noteIndex = -3 ∧
    (MusicNote.fromFrequency CMath.real (55 / 32) 0 440).midiNote % 12 = 9 ∧
    (MusicNote.fromFrequency CMath.real (55 / 32) 0 440).noteName = none := by
  have hm := midiNote_low 0
  have h : (MusicNote.fromFrequency CMath.real (55 / 32) 0 440).noteIndex
      = Int.tmod (MusicNote.fromFrequency CMath.real (55 / 32) 0 440).midiNote 12 := rfl
  have hi : (MusicNote.fromFrequency CMath.real (55 / 32) 0 440).noteIndex = -3 := by
    rw [h, hm]
    decide
  refine ⟨hm, hi, ?_, ?_⟩
  · rw [hm]
    decide
  · unfold MusicNote.noteName
    rw [hi]
    decide

/-- C10: over the reals, for every positive frequency `f` and positive reference pitch
`r`, with `m = 69 + 12 * log2 (f / r)`, the note of `fromFrequency` has `midiNote` a
nearest integer to `m` (at distance at most `1 / 2`, and no integer is nearer),
`centsDeviation = (m - midiNote) * 100`, and `-50 ≤ centsDeviation ≤ 50`. -/
theorem cents_deviation (f r mag : ℝ) (hf : 0 < f) (hr : 0 < r) :
    |69 + 12 * Real.logb 2 (f / r)
        - ((MusicNote.fromFrequency CMath.real f mag r).midiNote : ℝ)| ≤ 1 / 2 ∧
    (∀ z : Int,
      |69 + 12 * Real.logb 2 (f / r)
          - ((MusicNote.fromFrequency CMath.real f mag r).midiNote : ℝ)|
        ≤ |69 + 12 * Real.logb 2 (f / r) - (z : ℝ)|) ∧
    (MusicNote.fromFrequency CMath.real f mag r).centsDeviation
      = (69 + 12 * Real.logb 2 (f / r)
          - ((MusicNote.fromFrequency CMath.real f mag r).midiNote : ℝ)) * 100 ∧
    -50 ≤ (MusicNote.fromFrequency CMath.real f mag r).centsDeviation ∧
    (MusicNote.fromFrequency CMath.real f mag r).centsDeviation ≤ 50 := by
  have hle := abs_sub_toInt_stdRound_le (69 + 12 * Real.logb 2 (f / r))
  have hmin := abs_sub_toInt_stdRound_le_abs_sub (69 + 12 * Real.logb 2 (f / r))
  have hb := abs_le.mp hle
  refine ⟨hle, hmin, rfl, ?_, ?_⟩
  · show -50 ≤ (69 + 12 * Real.logb 2 (f / r)
        - ((toInt (stdRound (69 + 12 * Real.logb 2 (f / r))) : Int) : ℝ)) * 100
    linarith [hb.1]
  · show (69 + 12 * Real.logb 2 (f / r)
        - ((toInt (stdRound (69 + 12 * Real.logb 2 (f / r))) : Int) : ℝ)) * 100 ≤ 50
    linarith [hb.2]

/-- Witness of `cents_deviation`: the frequency 450 Hz against the reference 440 Hz. -/
theorem cents_deviation_witness :
    (0 : ℝ) < 450 ∧ (0 : ℝ) < 440 ∧
    -50 ≤ (MusicNote.fromFrequency CMath.real 450 0 440).centsDeviation ∧
    (MusicNote.fromFrequency CMath.real 450 0 440).centsDeviation ≤ 50 :=
  ⟨by norm_num, by norm_num,
    (cents_deviation 450 440 0 (by norm_num) (by norm_num)).2.2.2.1,
    (cents_deviation 450 440 0 (by norm_num) (by norm_num)).2.2.2.2⟩

/-! ## The circular buffer -/

section RingLemmas

variable {α : Type} [LinearOrderedField α]

theorem snapshot_length (k : keyqExtensionDSPKernel α) : k.snapshot.length = kFFTSize := by
  simp [keyqExtensionDSPKernel.snapshot]

theorem snapshot_getElem? (k : keyqExtensionDSPKernel α) (i : Nat) :
    k.snapshot[i]? = if i < kFFTSize then
      some (k.mCircularBuffer.getD ((k.mCircularBufferWriteIndex + i) % kFFTSize) 0) else none := by
  unfold keyqExtensionDSPKernel.snapshot keyqExtensionDSPKernel.readIndex
  rw [List.getElem?_map]
  split
  · rename_i h
    rw [List.getElem?_range h]
    rfl
  · rename_i h
    rw [List.getElem?_eq_none (by simpa using h)]
    rfl

theorem getD_set_self (l : List α) (i : Nat) (x : α) (h : i < l.length) :
    (l.set i x).getD i 0 = x := by
  rw [List.getD_eq_getElem?_getD, List.getElem?_set_self h]
  rfl

theorem getD_set_ne (l : List α) (i j : Nat) (x : α) (h : i ≠ j) :
    (l.set i x).getD j 0 = l.getD j 0 := by
  rw [List.getD_eq_getElem?_getD, List.getD_eq_getElem?_getD, List.getElem?_set_ne h]

theorem snapshot_pushSample (k : keyqExtensionDSPKernel α) (x : α)
    (hlen : k.mCircularBuffer.length = kFFTSize)
    (hidx : k.mCircularBufferWriteIndex < kFFTSize) :
    (k.pushSample x).snapshot = k.snapshot.drop 1 ++ [x] := by
  apply List.ext_getElem?
  intro i
  rw [snapshot_getElem?]
  simp only [keyqExtensionDSPKernel.pushSample]
  have hs := snapshot_length k
  unfold kFFTSize at *
  by_cases h1 : i + 1 < 4096
  · rw [List.getElem?_append_left (by rw [List.length_drop, hs]; omega),
      List.getElem?_drop, snapshot_getElem?]
    unfold kFFTSize
    have e1 : ((k.mCircularBufferWriteIndex + 1) % 4096 + i) % 4096
        = (k.mCircularBufferWriteIndex + (1 + i)) % 4096 := by omega
    have e2 : k.mCircularBufferWriteIndex
        ≠ (k.mCircularBufferWriteIndex + (1 + i)) % 4096 := by omega
    rw [e1, getD_set_ne _ _ _ _ e2, if_pos (by omega), if_pos (by omega)]
  · by_cases h2 : i = 4095
    · subst h2
      have e1 : ((k.mCircularBufferWriteIndex + 1) % 4096 + 4095) % 4096
          = k.mCircularBufferWriteIndex := by omega
      rw [e1, getD_set_self _ _ _ (by omega), if_pos (by omega),
        List.getElem?_append_right (by rw [List.length_drop, hs]), List.length_drop, hs]
      rfl
    · rw [if_neg (by omega), List.getElem?_eq_none]
      rw [List.length_append, List.length_drop, hs]
      simp
      omega

theorem pushSample_length (k : keyqExtensionDSPKernel α) (x : α) :
    (k.pushSample x).mCircularBuffer.length = k.mCircularBuffer.length := by
  simp [keyqExtensionDSPKernel.pushSample]

theorem pushSample_index_lt (k : keyqExtensionDSPKernel α) (x : α) :
    (k.pushSample x).mCircularBufferWriteIndex < kFFTSize := by
  simp only [keyqExtensionDSPKernel.pushSample]
  exact Nat.mod_lt _ (by decide)

theorem foldl_pushSample_length (xs : List α) (k : keyqExtensionDSPKernel α) :
    (xs.foldl keyqExtensionDSPKernel.pushSample k).mCircularBuffer.length
      = k.mCircularBuffer.length := by
  induction xs generalizing k with
  | nil => rfl
  | cons x xs ih => rw [List.foldl_cons, ih, pushSample_length]

theorem foldl_pushSample_index_lt (xs : List α) (k : keyqExtensionDSPKernel α)
    (hidx : k.mCircularBufferWriteIndex < kFFTSize) :
    (xs.foldl keyqExtensionDSPKernel.pushSample k).mCircularBufferWriteIndex < kFFTSize := by
  induction xs generalizing k with
  | nil => exact hidx
  | cons x xs ih =>
    rw [List.foldl_cons]
    exact ih _ (pushSample_index_lt k x)

theorem drop_push_eq {β : Type} (s xs : List β) (x : β) (h : 1 ≤ s.length) :
    (s.drop 1 ++ [x] ++ xs).drop xs.length = (s ++ x :: xs).drop (x :: xs).length := by
  rw [List.length_cons, Nat.add_comm, ← List.drop_drop, List.drop_append_of_le_length h,
    List.append_assoc]
  rfl

theorem snapshot_foldl_pushSample (xs : List α) (k : keyqExtensionDSPKernel α)
    (hlen : k.mCircularBuffer.length = kFFTSize)
    (hidx : k.mCircularBufferWriteIndex < kFFTSize) :
    (xs.foldl keyqExtensionDSPKernel.pushSample k).snapshot
      = (k.snapshot ++ xs).drop xs.length := by
  induction xs generalizing k with
  | nil => simp
  | cons x xs ih =>
    rw [List.foldl_cons, ih _ ((pushSample_length k x).trans hlen) (pushSample_index_lt k x),
      snapshot_pushSample k x hlen hidx]
    have h1 : 1 ≤ k.snapshot.length := by
      rw [snapshot_length]
      unfold kFFTSize
      omega
    exact drop_push_eq k.snapshot xs x h1

theorem drop_append_drop {β : Type} (s xs ys : List β) :
    ((s ++ xs).drop xs.length ++ ys).drop ys.length
      = (s ++ (xs ++ ys)).drop (xs ++ ys).length := by
  have h : xs.length ≤ (s ++ xs).length := by
    rw [List.length_append]
    omega
  rw [← List.drop_append_of_le_length h, List.drop_drop, List.append_assoc,
    List.length_append, Nat.add_comm]

theorem pushedSamples_nil {β : Type} : pushedSamples ([] : List (List (List β) × Nat)) = [] :=
  rfl

theorem pushedSamples_cons {β : Type} (call : List (List β) × Nat)
    (calls : List (List (List β) × Nat)) :
    pushedSamples (call :: calls)
      = (call.1.headD []).take call.2 ++ pushedSamples calls := rfl

theorem resize_length {β : Type} (l : List β) (n : Nat) (value : β) :
    (resize l n value).length = n := by
  unfold resize
  rw [List.length_append, List.length_take, List.length_replicate]
  omega

theorem snapshot_congr (k1 k2 : keyqExtensionDSPKernel α)
    (hbuf : k1.mCircularBuffer = k2.mCircularBuffer)
    (hidx : k1.mCircularBufferWriteIndex = k2.mCircularBufferWriteIndex) :
    k1.snapshot = k2.snapshot := by
  unfold keyqExtensionDSPKernel.snapshot keyqExtensionDSPKernel.readIndex
  rw [hbuf, hidx]

theorem performFFT_ring (v : VDSP α) (cm : CMath α) (k : keyqExtensionDSPKernel α) :
    (k.performFFT v cm).mCircularBuffer = k.mCircularBuffer ∧
    (k.performFFT v cm).mCircularBufferWriteIndex = k.mCircularBufferWriteIndex ∧
    (k.performFFT v cm).mBypassed = k.mBypassed := by
  unfold keyqExtensionDSPKernel.performFFT
  split
  · exact ⟨rfl, rfl, rfl⟩
  · exact ⟨rfl, rfl, rfl⟩

theorem foldl_pushSample_bypassed (xs : List α) (k : keyqExtensionDSPKernel α) :
    (xs.foldl keyqExtensionDSPKernel.pushSample k).mBypassed = k.mBypassed := by
  induction xs generalizing k with
  | nil => rfl
  | cons x xs ih =>
    rw [List.foldl_cons, ih]
    rfl

theorem zipWith_map_same {β γ δ ε : Type} (f : γ → δ → ε) (g : β → γ) (h : β → δ)
    (l : List β) :
    List.zipWith f (l.map g) (l.map h) = l.map (fun i => f (g i) (h i)) := by
  induction l with
  | nil => rfl
  | cons a l ih => simp [ih]

/-- The input of the transform is the chronological read times the window. -/
theorem performFFT_input (v : VDSP α) (cm : CMath α) (k : keyqExtensionDSPKernel α)
    (h : k.mFFTSetup = true) :
    (k.performFFT v cm).mFFTInputBuffer
      = overwrite k.mFFTInputBuffer
          (List.zipWith (fun x w => x * w) k.snapshot
            ((List.range kFFTSize).map (fun i => k.mWindow.getD i 0))) := by
  unfold keyqExtensionDSPKernel.performFFT keyqExtensionDSPKernel.snapshot
  rw [if_neg (by simp [h]), zipWith_map_same]

theorem initialize_ring (v : VDSP α) (k : keyqExtensionDSPKernel α) (ic oc : Int) (sr : α) :
    ( keyqExtensionDSPKernel.initialize v k ic oc sr).mCircularBuffer.length = kFFTSize ∧
    ( keyqExtensionDSPKernel.initialize v k ic oc sr).mCircularBufferWriteIndex = 0 ∧
    ( keyqExtensionDSPKernel.initialize v k ic oc sr).mBypassed = k.mBypassed :=
  ⟨resize_length _ _ _, rfl, rfl⟩

end RingLemmas

section ProcessLemmas

variable {α : Type} [LinearOrderedField α] [FloorRing α]

theorem detectPeaks_ring (cm : CMath α) (k : keyqExtensionDSPKernel α) :
    (k.detectPeaks cm).mCircularBuffer = k.mCircularBuffer ∧
    (k.detectPeaks cm).mCircularBufferWriteIndex = k.mCircularBufferWriteIndex ∧
    (k.detectPeaks cm).mBypassed = k.mBypassed :=
  ⟨rfl, rfl, rfl⟩

theorem process_ring (v : VDSP α) (cm : CMath α) (k : keyqExtensionDSPKernel α)
    (inputBuffers : List (List α)) (frameCount : Nat) (hb : k.mBypassed = false) :
    (k.process v cm inputBuffers frameCount).1.mCircularBuffer
      = (((inputBuffers.headD []).take frameCount).foldl
          keyqExtensionDSPKernel.pushSample k).mCircularBuffer ∧
    (k.process v cm inputBuffers frameCount).1.mCircularBufferWriteIndex
      = (((inputBuffers.headD []).take frameCount).foldl
          keyqExtensionDSPKernel.pushSample k).mCircularBufferWriteIndex ∧
    (k.process v cm inputBuffers frameCount).1.mBypassed = false := by
  have hf := foldl_pushSample_bypassed ((inputBuffers.headD []).take frameCount) k
  unfold keyqExtensionDSPKernel.process
  rw [if_neg (by simp [hb])]
  simp only
  split
  · refine ⟨?_, ?_, ?_⟩
    · rw [(detectPeaks_ring cm _).1, (performFFT_ring v cm _).1]
    · rw [(detectPeaks_ring cm _).2.1, (performFFT_ring v cm _).2.1]
    · rw [(detectPeaks_ring cm _).2.2, (performFFT_ring v cm _).2.2]
      exact hf.trans hb
  · exact ⟨rfl, rfl, hf.trans hb⟩

theorem process_snapshot (v : VDSP α) (cm : CMath α) (k : keyqExtensionDSPKernel α)
    (inputBuffers : List (List α)) (frameCount : Nat) (hb : k.mBypassed = false)
    (hlen : k.mCircularBuffer.length = kFFTSize)
    (hidx : k.mCircularBufferWriteIndex < kFFTSize) :
    (k.process v cm inputBuffers frameCount).1.snapshot
      = (k.snapshot ++ (inputBuffers.headD []).take frameCount).drop
          ((inputBuffers.headD []).take frameCount).length ∧
    (k.process v cm inputBuffers frameCount).1.mCircularBuffer.length = kFFTSize ∧
    (k.process v cm inputBuffers frameCount).1.mCircularBufferWriteIndex < kFFTSize ∧
    (k.process v cm inputBuffers frameCount).1.mBypassed = false := by
  have h := process_ring v cm k inputBuffers frameCount hb
  refine ⟨?_, ?_, ?_, h.2.2⟩
  · rw [snapshot_congr _ _ h.1 h.2.1, snapshot_foldl_pushSample _ k hlen hidx]
  · rw [h.1, foldl_pushSample_length, hlen]
  · rw [h.2.1]
    exact foldl_pushSample_index_lt _ k hidx

theorem processAll_snapshot (v : VDSP α) (cm : CMath α)
    (calls : List (List (List α) × Nat)) (k : keyqExtensionDSPKernel α)
    (hb : k.mBypassed = false) (hlen : k.mCircularBuffer.length = kFFTSize)
    (hidx : k.mCircularBufferWriteIndex < kFFTSize) :
    (k.processAll v cm calls).snapshot
      = (k.snapshot ++ pushedSamples calls).drop (pushedSamples calls).length := by
  induction calls generalizing k with
  | nil => simp [keyqExtensionDSPKernel.processAll, pushedSamples]
  | cons call calls ih =>
    have h := process_snapshot v cm k call.1 call.2 hb hlen hidx
    have e : keyqExtensionDSPKernel.processAll v cm k (call :: calls)
        = keyqExtensionDSPKernel.processAll v cm (k.process v cm call.1 call.2).1 calls := rfl
    have p : pushedSamples (call :: calls)
        = (call.1.headD []).take call.2 ++ pushedSamples calls := rfl
    rw [e, ih _ h.2.2.2 h.2.1 h.2.2.1, h.1, p, drop_append_drop]

end ProcessLemmas

section RingClaims

variable {α : Type} [LinearOrderedField α] [FloorRing α]

/-- C1: for a kernel that is not bypassed and has been initialised (buffer capacity
`kFFTSize = 4096`), after any sequence of `process` calls that pushes `M ≥ 4096` samples
in total, however they are split into calls, the chronological read of `performFFT`
(element `i` is `mCircularBuffer[(mCircularBufferWriteIndex + i) % kFFTSize]`) is
exactly the last 4096 pushed samples in the order they were pushed, oldest first. -/
theorem ring_buffer_chronological (v : VDSP α) (cm : CMath α)
    (k0 : keyqExtensionDSPKernel α) (ic oc : Int) (sr : α)
    (calls : List (List (List α) × Nat)) (hb : k0.mBypassed = false)
    (hM : kFFTSize ≤ (pushedSamples calls).length) :
    (keyqExtensionDSPKernel.processAll v cm
        ( keyqExtensionDSPKernel.initialize v k0 ic oc sr) calls).snapshot
      = (pushedSamples calls).drop ((pushedSamples calls).length - kFFTSize) := by
  have hi := initialize_ring v k0 ic oc sr
  have hidx : ( keyqExtensionDSPKernel.initialize v k0 ic oc sr).mCircularBufferWriteIndex
      < kFFTSize := by
    rw [hi.2.1]
    unfold kFFTSize
    omega
  rw [processAll_snapshot v cm calls _ (hi.2.2.trans hb) hi.1 hidx,
    List.drop_append_eq_append_drop, snapshot_length,
    List.drop_eq_nil_of_le (by rw [snapshot_length]; exact hM), List.nil_append]

/-- Witness of `ring_buffer_chronological`: 5000 samples pushed by two calls of 3000 and
2000 frames into a newly constructed, initialised kernel. -/
theorem ring_buffer_chronological_witness :
    ({} : keyqExtensionDSPKernel ℝ).mBypassed = false ∧
    kFFTSize ≤ (pushedSamples
      [([List.replicate 3000 (1 : ℝ)], 3000), ([List.replicate 2000 (2 : ℝ)], 2000)]).length ∧
    (keyqExtensionDSPKernel.processAll ⟨fun _ => true, fun _ _ => 1, fun _ z => z⟩ CMath.real
        ( keyqExtensionDSPKernel.initialize ⟨fun _ => true, fun _ _ => 1, fun _ z => z⟩
          {} 1 1 44100)
        [([List.replicate 3000 (1 : ℝ)], 3000), ([List.replicate 2000 (2 : ℝ)], 2000)]).snapshot
      = (pushedSamples
          [([List.replicate 3000 (1 : ℝ)], 3000), ([List.replicate 2000 (2 : ℝ)], 2000)]).drop
        ((pushedSamples
          [([List.replicate 3000 (1 : ℝ)], 3000),
            ([List.replicate 2000 (2 : ℝ)], 2000)]).length - kFFTSize) :=
  have hM : kFFTSize ≤ (pushedSamples
      [([List.replicate 3000 (1 : ℝ)], 3000), ([List.replicate 2000 (2 : ℝ)], 2000)]).length := by
    rw [pushedSamples_cons, pushedSamples_cons, pushedSamples_nil]
    simp only [List.headD_cons, List.length_append, List.length_take, List.length_replicate,
      List.length_nil]
    unfold kFFTSize
    omega
  ⟨rfl, hM, ring_buffer_chronological _ _ _ 1 1 44100 _ rfl hM⟩

end RingClaims

/-! ## Peak detection -/

section PeakOrderLemmas

variable {α : Type} [LinearOrderedField α]

theorem peakOrder_iff (a b : DetectedPeak α) : peakOrder a b ↔ a.magnitude ≥ b.magnitude := by
  unfold peakOrder
  rw [decide_eq_false_iff_not, not_lt]

instance peakOrder_total : IsTotal (DetectedPeak α) peakOrder :=
  ⟨fun a b => by
    rw [peakOrder_iff, peakOrder_iff]
    exact le_total _ _⟩

instance peakOrder_trans : IsTrans (DetectedPeak α) peakOrder :=
  ⟨fun a b c hab hbc => by
    rw [peakOrder_iff] at *
    exact le_trans hbc hab⟩

theorem take_of_length_gt {β : Type} (l : List β) (n : Nat) :
    (if l.length > n then l.take n else l) = l.take n := by
  split
  · rfl
  · rw [List.take_of_length_le (by omega)]

theorem mem_qualifyingList (k : keyqExtensionDSPKernel α) (i : Nat) :
    i ∈ k.qualifyingList ↔ i ∈ k.qualifyingBins := by
  unfold keyqExtensionDSPKernel.qualifyingList keyqExtensionDSPKernel.qualifyingBins
  rw [List.mem_filter, Finset.mem_filter, Finset.mem_Ico, List.mem_range']
  unfold kMinBin kFFTSizeOver2 kFFTSize
  constructor
  · rintro ⟨⟨j, hj, rfl⟩, hq⟩
    exact ⟨by omega, by simpa using hq⟩
  · rintro ⟨hi, hq⟩
    exact ⟨⟨i - 3, by omega, by omega⟩, by simpa using hq⟩

theorem qualifyingList_nodup (k : keyqExtensionDSPKernel α) : k.qualifyingList.Nodup :=
  (List.nodup_range' _ _).filter _

theorem qualifyingList_length (k : keyqExtensionDSPKernel α) :
    k.qualifyingList.length = k.qualifyingBins.card := by
  rw [← List.toFinset_card_of_nodup (qualifyingList_nodup k)]
  congr 1
  ext i
  rw [List.mem_toFinset, mem_qualifyingList]

theorem filterMap_ite {β γ : Type} (p : β → Prop) [DecidablePred p] (f : β → γ)
    (l : List β) :
    l.filterMap (fun i => if p i then some (f i) else none) = (l.filter (fun i => p i)).map f := by
  induction l with
  | nil => rfl
  | cons a l ih =>
    by_cases h : p a
    · simp [List.filterMap_cons, List.filter_cons, h, ih]
    · simp [List.filterMap_cons, List.filter_cons, h, ih]

theorem mem_qualifyingBins (k : keyqExtensionDSPKernel α) (i : Nat) :
    i ∈ k.qualifyingBins ↔ (kMinBin + 1 ≤ i ∧ i < kFFTSizeOver2 - 1) ∧ k.qualifies i := by
  unfold keyqExtensionDSPKernel.qualifyingBins
  rw [Finset.mem_filter, Finset.mem_Ico]

theorem singleLine_getD (line i : Nat) :
    (singleLineKernel α line).mFFTMagnitudes.getD i 0
      = if i < kFFTSizeOver2 then (if i = line then -6 else -160) else 0 := by
  unfold singleLineKernel
  simp only
  rw [List.getD_eq_getElem?_getD, List.getElem?_map]
  split
  · rename_i h
    rw [List.getElem?_range h]
    rfl
  · rename_i h
    rw [List.getElem?_eq_none (by simpa using h)]
    rfl

theorem singleLine_length (line : Nat) :
    (singleLineKernel α line).mFFTMagnitudes.length = kFFTSizeOver2 := by
  simp [singleLineKernel]

theorem singleLine_qualifies (line : Nat) (h2 : 2 ≤ line) (h3 : line ≤ 1521) :
    (singleLineKernel α line).qualifies line := by
  have c2 : (2 : α) ≤ (line : α) := by exact_mod_cast h2
  have c3 : (line : α) ≤ 1521 := by exact_mod_cast h3
  have e0 : (singleLineKernel α line).mFFTMagnitudes.getD line 0 = -6 := by
    rw [singleLine_getD, if_pos (by unfold kFFTSizeOver2 kFFTSize; omega), if_pos rfl]
  have e1 : (singleLineKernel α line).mFFTMagnitudes.getD (line - 1) 0 = -160 := by
    rw [singleLine_getD, if_pos (by unfold kFFTSizeOver2 kFFTSize; omega), if_neg (by omega)]
  have e2 : (singleLineKernel α line).mFFTMagnitudes.getD (line + 1) 0 = -160 := by
    rw [singleLine_getD, if_pos (by unfold kFFTSizeOver2 kFFTSize; omega), if_neg (by omega)]
  have hs : (singleLineKernel α line).mSampleRate = 44100 := rfl
  unfold keyqExtensionDSPKernel.qualifies keyqExtensionDSPKernel.binFrequency
  rw [e0, e1, e2, hs]
  unfold kFFTSize kPeakThresholdDB
  refine ⟨by norm_num, by norm_num, by norm_num, ?_, ?_⟩
  · rw [le_div_iff₀ (by norm_num)]
    push_cast
    linarith
  · rw [div_le_iff₀ (by norm_num)]
    push_cast
    linarith

theorem singleLine_eq_of_qualifies (line i : Nat) (hi : i < kFFTSizeOver2)
    (hq : (singleLineKernel α line).qualifies i) : i = line := by
  have h := hq.1
  rw [singleLine_getD, if_pos hi] at h
  by_contra hne
  rw [if_neg hne] at h
  unfold kPeakThresholdDB at h
  norm_num at h

theorem singleLine_card_le (line : Nat) :
    (singleLineKernel α line).qualifyingBins.card ≤ 1 := by
  have hsub : (singleLineKernel α line).qualifyingBins ⊆ {line} := by
    intro i hi
    rw [mem_qualifyingBins] at hi
    rw [Finset.mem_singleton]
    refine singleLine_eq_of_qualifies line i ?_ hi.2
    have := hi.1.2
    omega
  exact (Finset.card_le_card hsub).trans (by simp)

end PeakOrderLemmas

section PeakLemmas

variable {α : Type} [LinearOrderedField α] [FloorRing α]

theorem peakAt_eq (cm : CMath α) (k : keyqExtensionDSPKernel α) (i : Nat) :
    k.peakAt cm i = if k.qualifies i then some (k.peakOfBin cm i) else none := by
  unfold keyqExtensionDSPKernel.peakAt keyqExtensionDSPKernel.qualifies
    keyqExtensionDSPKernel.peakOfBin
  simp only
  by_cases h : k.mFFTMagnitudes.getD i 0 > kPeakThresholdDB ∧
      k.mFFTMagnitudes.getD i 0 ≥ k.mFFTMagnitudes.getD (i - 1) 0 ∧
      k.mFFTMagnitudes.getD i 0 ≥ k.mFFTMagnitudes.getD (i + 1) 0
  · rw [if_pos h]
    by_cases hf : k.binFrequency i < 20 ∨ k.binFrequency i > 16384
    · rw [if_pos hf, if_neg]
      rintro ⟨-, -, -, h1, h2⟩
      rcases hf with hf | hf
      · exact absurd h1 (not_le.mpr hf)
      · exact absurd h2 (not_le.mpr hf)
    · rw [if_neg hf, if_pos]
      push_neg at hf
      exact ⟨h.1, h.2.1, h.2.2, hf.1, hf.2⟩
  · rw [if_neg h, if_neg]
    rintro ⟨h1, h2, h3, -, -⟩
    exact h ⟨h1, h2, h3⟩

/-- The peaks found by the loop of `detectPeaks`, after the sort. -/
theorem detectPeaks_eq (cm : CMath α) (k : keyqExtensionDSPKernel α) :
    (k.detectPeaks cm).mDetectedPeaks
      = ((k.qualifyingList.map (k.peakOfBin cm)).insertionSort peakOrder).take kMaxPeaks := by
  unfold keyqExtensionDSPKernel.detectPeaks
  simp only
  rw [take_of_length_gt]
  have h : k.peakAt cm
      = (fun i => if k.qualifies i then some (k.peakOfBin cm i) else none) :=
    funext (peakAt_eq cm k)
  rw [h, filterMap_ite]
  rfl

theorem binIndex_peakOfBin (cm : CMath α) (k : keyqExtensionDSPKernel α) :
    (k.qualifyingList.map (k.peakOfBin cm)).map (fun p => p.binIndex) = k.qualifyingList := by
  rw [List.map_map]
  exact List.map_id _

theorem sorted_perm (cm : CMath α) (k : keyqExtensionDSPKernel α) :
    ((k.qualifyingList.map (k.peakOfBin cm)).insertionSort peakOrder).Sorted peakOrder ∧
    List.Perm ((k.qualifyingList.map (k.peakOfBin cm)).insertionSort peakOrder)
      (k.qualifyingList.map (k.peakOfBin cm)) :=
  ⟨List.sorted_insertionSort _ _, List.perm_insertionSort _ _⟩

theorem mem_detectPeaks (cm : CMath α) (k : keyqExtensionDSPKernel α) (p : DetectedPeak α)
    (hp : p ∈ (k.detectPeaks cm).mDetectedPeaks) :
    ∃ i, i ∈ k.qualifyingBins ∧ k.peakOfBin cm i = p := by
  rw [detectPeaks_eq] at hp
  have h1 := (sorted_perm cm k).2.mem_iff.mp (List.mem_of_mem_take hp)
  obtain ⟨i, hi, rfl⟩ := List.mem_map.mp h1
  exact ⟨i, (mem_qualifyingList k i).mp hi, rfl⟩

theorem peakOfBin_mem_detectPeaks (cm : CMath α) (k : keyqExtensionDSPKernel α) (i : Nat)
    (hi : i ∈ k.qualifyingBins) (hK : k.qualifyingBins.card ≤ kMaxPeaks) :
    k.peakOfBin cm i ∈ (k.detectPeaks cm).mDetectedPeaks := by
  rw [detectPeaks_eq, List.take_of_length_le]
  · rw [(sorted_perm cm k).2.mem_iff]
    exact List.mem_map.mpr ⟨i, (mem_qualifyingList k i).mpr hi, rfl⟩
  · rw [List.length_insertionSort, List.length_map, qualifyingList_length]
    exact hK

end PeakLemmas

section PeakClaims

variable {α : Type} [LinearOrderedField α] [FloorRing α]

/-- C2: for every kernel state (every spectrum and sample rate) the peak list that
`detectPeaks` leaves is sorted non-increasing by magnitude: every earlier peak has a
magnitude at least that of every later one, in particular at adjacent positions
`j`, `j + 1`. -/
theorem peaks_sorted_by_magnitude (cm : CMath α) (k : keyqExtensionDSPKernel α) :
    List.Pairwise (fun a b => a.magnitude ≥ b.magnitude) (k.detectPeaks cm).mDetectedPeaks ∧
    List.Chain' (fun a b => a.magnitude ≥ b.magnitude) (k.detectPeaks cm).mDetectedPeaks ∧
    ∀ (j : Nat) (h : j + 1 < (k.detectPeaks cm).mDetectedPeaks.length),
      ((k.detectPeaks cm).mDetectedPeaks[j]).magnitude
        ≥ ((k.detectPeaks cm).mDetectedPeaks[j + 1]).magnitude := by
  have hs : List.Pairwise (fun a b => a.magnitude ≥ b.magnitude)
      (k.detectPeaks cm).mDetectedPeaks := by
    rw [detectPeaks_eq]
    have h := ((sorted_perm cm k).1.sublist (List.take_sublist kMaxPeaks _))
    exact List.Pairwise.imp (fun {a b} hab => (peakOrder_iff a b).mp hab) h
  refine ⟨hs, hs.chain', ?_⟩
  intro j h
  exact List.pairwise_iff_getElem.mp hs j (j + 1) (by omega) h (by omega)

/-- C3: let `Q` be the set of the bins visited by the loop of `detectPeaks` that pass
the threshold, local-maximum and audible-band tests. `detectPeaks` reports exactly
`min kMaxPeaks |Q|` peaks with `kMaxPeaks = 10`, hence at most 10; their bin indices
are distinct members of `Q`; and every bin of `Q` that is not reported has a
magnitude less than or equal to that of every reported peak. -/
theorem top_k_selection (cm : CMath α) (k : keyqExtensionDSPKernel α) :
    (k.detectPeaks cm).mDetectedPeaks.length = min 10 k.qualifyingBins.card ∧
    (k.detectPeaks cm).mDetectedPeaks.length ≤ 10 ∧
    ((k.detectPeaks cm).mDetectedPeaks.map (fun p => p.binIndex)).Nodup ∧
    (∀ p ∈ (k.detectPeaks cm).mDetectedPeaks, p.binIndex ∈ k.qualifyingBins) ∧
    (∀ i ∈ k.qualifyingBins,
      i ∉ (k.detectPeaks cm).mDetectedPeaks.map (fun p => p.binIndex) →
      ∀ p ∈ (k.detectPeaks cm).mDetectedPeaks, k.mFFTMagnitudes.getD i 0 ≤ p.magnitude) := by
  have hlen : (k.detectPeaks cm).mDetectedPeaks.length = min 10 k.qualifyingBins.card := by
    rw [detectPeaks_eq, List.length_take, List.length_insertionSort, List.length_map,
      qualifyingList_length]
    rfl
  refine ⟨hlen, ?_, ?_, ?_, ?_⟩
  · rw [hlen]
    exact min_le_left _ _
  · rw [detectPeaks_eq]
    have h1 : ((k.qualifyingList.map (k.peakOfBin cm)).insertionSort peakOrder).map
        (fun p => p.binIndex) |>.Nodup := by
      rw [((sorted_perm cm k).2.map _).nodup_iff, binIndex_peakOfBin]
      exact qualifyingList_nodup k
    exact h1.sublist ((List.take_sublist kMaxPeaks _).map _)
  · intro p hp
    obtain ⟨i, hi, rfl⟩ := mem_detectPeaks cm k p hp
    exact hi
  · intro i hi hnot p hp
    have hin : k.peakOfBin cm i
        ∈ (k.qualifyingList.map (k.peakOfBin cm)).insertionSort peakOrder := by
      rw [(sorted_perm cm k).2.mem_iff]
      exact List.mem_map.mpr ⟨i, (mem_qualifyingList k i).mpr hi, rfl⟩
    rw [detectPeaks_eq] at hnot hp
    rw [← List.take_append_drop kMaxPeaks
      ((k.qualifyingList.map (k.peakOfBin cm)).insertionSort peakOrder), List.mem_append] at hin
    rcases hin with hin | hin
    · exact absurd (List.mem_map.mpr ⟨_, hin, rfl⟩) hnot
    · have h := (sorted_perm cm k).1.rel_of_mem_take_of_mem_drop hp hin
      exact (peakOrder_iff _ _).mp h

/-- C4: every peak that `detectPeaks` returns has a frequency `f` with
`20 ≤ f ≤ 16384` Hz, and its bin index is none of 0, 1 and `kFFTSizeOver2 - 1 = 2047`. -/
theorem peaks_in_band (cm : CMath α) (k : keyqExtensionDSPKernel α) (p : DetectedPeak α)
    (hp : p ∈ (k.detectPeaks cm).mDetectedPeaks) :
    20 ≤ p.frequency ∧ p.frequency ≤ 16384 ∧
    p.binIndex ≠ 0 ∧ p.binIndex ≠ 1 ∧ p.binIndex ≠ 2047 ∧
    p.binIndex ≠ kFFTSizeOver2 - 1 := by
  obtain ⟨i, hi, rfl⟩ := mem_detectPeaks cm k p hp
  rw [mem_qualifyingBins] at hi
  obtain ⟨⟨h1, h2⟩, hq⟩ := hi
  unfold kMinBin kFFTSizeOver2 kFFTSize at *
  refine ⟨hq.2.2.2.1, hq.2.2.2.2, ?_, ?_, ?_, ?_⟩ <;>
    simp only [keyqExtensionDSPKernel.peakOfBin] <;> omega

/-- Witness of `peaks_in_band`: the peak of a single line in bin 41 at 44100 Hz. -/
theorem peaks_in_band_witness :
    (singleLineKernel ℝ 41).peakOfBin CMath.real 41
      ∈ ((singleLineKernel ℝ 41).detectPeaks CMath.real).mDetectedPeaks ∧
    (20 : ℝ) ≤ ((singleLineKernel ℝ 41).peakOfBin CMath.real 41).frequency ∧
    ((singleLineKernel ℝ 41).peakOfBin CMath.real 41).frequency ≤ 16384 :=
  have hin : (singleLineKernel ℝ 41).peakOfBin CMath.real 41
      ∈ ((singleLineKernel ℝ 41).detectPeaks CMath.real).mDetectedPeaks :=
    peakOfBin_mem_detectPeaks CMath.real _ 41
      ((mem_qualifyingBins _ 41).mpr
        ⟨by unfold kMinBin kFFTSizeOver2 kFFTSize; omega,
          singleLine_qualifies 41 (by omega) (by omega)⟩)
      ((singleLine_card_le 41).trans (by unfold kMaxPeaks; omega))
  ⟨hin, (peaks_in_band CMath.real _ _ hin).1, (peaks_in_band CMath.real _ _ hin).2.1⟩

/-- C5: every peak that `detectPeaks` returns, with bin index `i`, has its magnitude
equal to `mFFTMagnitudes[i]`, which is strictly above -30 dB and at least
`mFFTMagnitudes[i - 1]` and `mFFTMagnitudes[i + 1]`; its frequency is
`i * mSampleRate / 4096`; and its note is `fromFrequency frequency magnitude 440`, so
that the note carries the frequency and the magnitude of the peak. -/
theorem peak_soundness (cm : CMath α) (k : keyqExtensionDSPKernel α) (p : DetectedPeak α)
    (hp : p ∈ (k.detectPeaks cm).mDetectedPeaks) :
    p.magnitude = k.mFFTMagnitudes.getD p.binIndex 0 ∧
    k.mFFTMagnitudes.getD p.binIndex 0 > -30 ∧
    k.mFFTMagnitudes.getD p.binIndex 0 ≥ k.mFFTMagnitudes.getD (p.binIndex - 1) 0 ∧
    k.mFFTMagnitudes.getD p.binIndex 0 ≥ k.mFFTMagnitudes.getD (p.binIndex + 1) 0 ∧
    p.frequency = ((p.binIndex : α) * k.mSampleRate) / 4096 ∧
    p.note = MusicNote.fromFrequency cm p.frequency p.magnitude 440 ∧
    p.note.frequency = p.frequency ∧ p.note.magnitude = p.magnitude := by
  obtain ⟨i, hi, rfl⟩ := mem_detectPeaks cm k p hp
  rw [mem_qualifyingBins] at hi
  obtain ⟨-, hq⟩ := hi
  refine ⟨rfl, hq.1, hq.2.1, hq.2.2.1, ?_, rfl, rfl, rfl⟩
  simp [keyqExtensionDSPKernel.peakOfBin, keyqExtensionDSPKernel.binFrequency, kFFTSize]

/-- Witness of `peak_soundness`: the peak of a single line in bin 100 at 44100 Hz. -/
theorem peak_soundness_witness :
    (singleLineKernel ℝ 100).peakOfBin CMath.real 100
      ∈ ((singleLineKernel ℝ 100).detectPeaks CMath.real).mDetectedPeaks ∧
    ((singleLineKernel ℝ 100).peakOfBin CMath.real 100).magnitude
      = (singleLineKernel ℝ 100).mFFTMagnitudes.getD 100 0 :=
  have hin : (singleLineKernel ℝ 100).peakOfBin CMath.real 100
      ∈ ((singleLineKernel ℝ 100).detectPeaks CMath.real).mDetectedPeaks :=
    peakOfBin_mem_detectPeaks CMath.real _ 100
      ((mem_qualifyingBins _ 100).mpr
        ⟨by unfold kMinBin kFFTSizeOver2 kFFTSize; omega,
          singleLine_qualifies 100 (by omega) (by omega)⟩)
      ((singleLine_card_le 100).trans (by unfold kMaxPeaks; omega))
  ⟨hin, (peak_soundness CMath.real _ _ hin).1⟩

/-- C6, as amended: the loop of `detectPeaks` visits every bin index from
`kMinBin + 1 = 3` to `kFFTSizeOver2 - 2 = 2046` and no other. When bin 3 passes the
tests (above -30 dB, at least bins 2 and 4, frequency `3 * mSampleRate / 4096` in the
audible band) and fewer than `kMaxPeaks` visited bins qualify, the peak list contains
a peak with bin index 3, and likewise for every qualifying bin from 3 to 2046; every
returned peak has its bin index in that range. -/
theorem scan_range_from_bin_three (cm : CMath α) (k : keyqExtensionDSPKernel α)
    (h3 : k.qualifies 3) (hK : k.qualifyingBins.card < kMaxPeaks) :
    (∃ p ∈ (k.detectPeaks cm).mDetectedPeaks, p.binIndex = 3) ∧
    (∀ i, 3 ≤ i → i ≤ kFFTSizeOver2 - 2 → k.qualifies i →
      ∃ p ∈ (k.detectPeaks cm).mDetectedPeaks, p.binIndex = i) ∧
    (∀ p ∈ (k.detectPeaks cm).mDetectedPeaks, 3 ≤ p.binIndex ∧ p.binIndex ≤ kFFTSizeOver2 - 2) := by
  have hall : ∀ i, 3 ≤ i → i ≤ kFFTSizeOver2 - 2 → k.qualifies i →
      ∃ p ∈ (k.detectPeaks cm).mDetectedPeaks, p.binIndex = i := by
    intro i h1 h2 hq
    refine ⟨k.peakOfBin cm i, peakOfBin_mem_detectPeaks cm k i ?_ (Nat.le_of_lt hK), rfl⟩
    rw [mem_qualifyingBins]
    unfold kMinBin kFFTSizeOver2 kFFTSize at *
    exact ⟨⟨by omega, by omega⟩, hq⟩
  refine ⟨hall 3 (le_refl 3) (by unfold kFFTSizeOver2 kFFTSize; omega) h3, hall, ?_⟩
  intro p hp
  obtain ⟨i, hi, rfl⟩ := mem_detectPeaks cm k p hp
  rw [mem_qualifyingBins] at hi
  have h1 := hi.1.1
  have h2 := hi.1.2
  unfold kMinBin kFFTSizeOver2 kFFTSize at *
  simp only [keyqExtensionDSPKernel.peakOfBin]
  omega

/-- Witness of `scan_range_from_bin_three`: a single line in bin 3 at 44100 Hz. -/
theorem scan_range_from_bin_three_witness :
    (singleLineKernel ℝ 3).qualifies 3 ∧
    (singleLineKernel ℝ 3).qualifyingBins.card < kMaxPeaks ∧
    ∃ p ∈ ((singleLineKernel ℝ 3).detectPeaks CMath.real).mDetectedPeaks, p.binIndex = 3 :=
  ⟨singleLine_qualifies 3 (by omega) (by omega),
    lt_of_le_of_lt (singleLine_card_le 3) (by unfold kMaxPeaks; omega),
    (scan_range_from_bin_three CMath.real (singleLineKernel ℝ 3)
      (singleLine_qualifies 3 (by omega) (by omega))
      (lt_of_le_of_lt (singleLine_card_le 3) (by unfold kMaxPeaks; omega))).1⟩

/-- C6 fails as stated: for the spectrum of 2048 bins with a single line of -6 dB in
bin 2 over a floor of -160 dB, at 44100 Hz, bin 2 passes the tests (above -30 dB, at
least bins 1 and 3, frequency 2 * 44100 / 4096 in the audible band) and fewer than
`kMaxPeaks` bins qualify overall, yet `detectPeaks` returns the empty list, so no
peak has bin index 2. -/
theorem scan_range_counterexample :
    (singleLineKernel ℝ 2).mFFTMagnitudes.length = kFFTSizeOver2 ∧
    (singleLineKernel ℝ 2).qualifies 2 ∧
    ((Finset.range kFFTSizeOver2).filter
      (fun i => (singleLineKernel ℝ 2).qualifies i)).card < kMaxPeaks ∧
    ((singleLineKernel ℝ 2).detectPeaks CMath.real).mDetectedPeaks = [] ∧
    ¬ ∃ p ∈ ((singleLineKernel ℝ 2).detectPeaks CMath.real).mDetectedPeaks,
        p.binIndex = 2 := by
  have hnil : ((singleLineKernel ℝ 2).detectPeaks CMath.real).mDetectedPeaks = [] := by
    rw [List.eq_nil_iff_forall_not_mem]
    intro p hp
    obtain ⟨i, hi, -⟩ := mem_detectPeaks CMath.real _ p hp
    rw [mem_qualifyingBins] at hi
    have h1 := hi.1.1
    have h2 := hi.1.2
    have h := singleLine_eq_of_qualifies 2 i (by omega) hi.2
    unfold kMinBin at h1
    omega
  refine ⟨singleLine_length 2, singleLine_qualifies 2 (by omega) (by omega), ?_, hnil, ?_⟩
  · have hsub : (Finset.range kFFTSizeOver2).filter
        (fun i => (singleLineKernel ℝ 2).qualifies i) ⊆ {2} := by
      intro i hi
      rw [Finset.mem_filter, Finset.mem_range] at hi
      rw [Finset.mem_singleton]
      exact singleLine_eq_of_qualifies 2 i hi.1 hi.2
    have hle : ((Finset.range kFFTSizeOver2).filter
        (fun i => (singleLineKernel ℝ 2).qualifies i)).card ≤ 1 :=
      (Finset.card_le_card hsub).trans (by simp)
    exact lt_of_le_of_lt hle (by unfold kMaxPeaks; omega)
  · rw [hnil]
    simp

end PeakClaims

/-! ## The effect of `process` on the state -/

section FrameLemmas

variable {α : Type} [LinearOrderedField α]

theorem foldl_pushSample_eq (xs : List α) (k : keyqExtensionDSPKernel α) :
    xs.foldl keyqExtensionDSPKernel.pushSample k
      = { k with
          mCircularBuffer := (xs.foldl keyqExtensionDSPKernel.pushSample k).mCircularBuffer
          mCircularBufferWriteIndex :=
            (xs.foldl keyqExtensionDSPKernel.pushSample k).mCircularBufferWriteIndex } := by
  induction xs generalizing k with
  | nil => rfl
  | cons x xs ih =>
    rw [List.foldl_cons]
    exact (ih (k.pushSample x)).trans rfl

theorem foldl_pushSample_index (xs : List α) (k : keyqExtensionDSPKernel α)
    (hidx : k.mCircularBufferWriteIndex < kFFTSize) :
    (xs.foldl keyqExtensionDSPKernel.pushSample k).mCircularBufferWriteIndex
      = (k.mCircularBufferWriteIndex + xs.length) % kFFTSize := by
  induction xs generalizing k with
  | nil =>
    rw [List.foldl_nil, List.length_nil, Nat.add_zero, Nat.mod_eq_of_lt hidx]
  | cons x xs ih =>
    rw [List.foldl_cons, ih _ (pushSample_index_lt k x), List.length_cons]
    simp only [keyqExtensionDSPKernel.pushSample]
    unfold kFFTSize
    omega

theorem getD_eq_zero {β : Type} [Zero β] (l : List β) (i : Nat) (h : ∀ x ∈ l, x = 0) :
    l.getD i 0 = 0 := by
  rw [List.getD_eq_getElem?_getD]
  cases hi : l[i]? with
  | none => rfl
  | some x => exact h x (List.getElem?_mem hi)

theorem snapshot_new (v : VDSP α) (ic oc : Int) (sr : α) :
    ( keyqExtensionDSPKernel.initialize v ({} : keyqExtensionDSPKernel α) ic oc sr).snapshot
      = List.replicate kFFTSize 0 := by
  rw [List.eq_replicate_iff]
  refine ⟨snapshot_length _, ?_⟩
  intro b hb
  unfold keyqExtensionDSPKernel.snapshot at hb
  obtain ⟨i, -, rfl⟩ := List.mem_map.mp hb
  apply getD_eq_zero
  intro x hx
  have hx2 : x ∈ resize ([] : List α) kFFTSize 0 := hx
  unfold resize at hx2
  rw [List.take_nil, List.nil_append] at hx2
  exact (List.mem_replicate.mp hx2).2

theorem performFFT_without_setup (v : VDSP α) (cm : CMath α) (k : keyqExtensionDSPKernel α)
    (hs : k.mFFTSetup = false) : k.performFFT v cm = k := by
  unfold keyqExtensionDSPKernel.performFFT
  rw [if_pos hs]

theorem deInitialize_eq (k : keyqExtensionDSPKernel α) :
    k.deInitialize = { k with mFFTSetup := false } := by
  unfold keyqExtensionDSPKernel.deInitialize keyqExtensionDSPKernel.teardownFFT
  split
  · rfl
  · rename_i h
    have hs : k.mFFTSetup = false := by simpa using h
    cases k
    simp only at hs
    rw [hs]

theorem foldl_pushSample_congr (xs : List α) (k1 k2 : keyqExtensionDSPKernel α)
    (hbuf : k1.mCircularBuffer = k2.mCircularBuffer)
    (hidx : k1.mCircularBufferWriteIndex = k2.mCircularBufferWriteIndex) :
    (xs.foldl keyqExtensionDSPKernel.pushSample k1).mCircularBuffer
      = (xs.foldl keyqExtensionDSPKernel.pushSample k2).mCircularBuffer ∧
    (xs.foldl keyqExtensionDSPKernel.pushSample k1).mCircularBufferWriteIndex
      = (xs.foldl keyqExtensionDSPKernel.pushSample k2).mCircularBufferWriteIndex := by
  induction xs generalizing k1 k2 with
  | nil => exact ⟨hbuf, hidx⟩
  | cons x xs ih =>
    rw [List.foldl_cons, List.foldl_cons]
    apply ih
    · simp only [keyqExtensionDSPKernel.pushSample, hbuf, hidx]
    · simp only [keyqExtensionDSPKernel.pushSample, hidx]

theorem performFFT_counter (v : VDSP α) (cm : CMath α) (k : keyqExtensionDSPKernel α) :
    (k.performFFT v cm).mFramesSinceLastFFT = k.mFramesSinceLastFFT := by
  unfold keyqExtensionDSPKernel.performFFT
  split <;> rfl

theorem runsAnalysis_eq (k : keyqExtensionDSPKernel α) (frameCount : Nat)
    (hb : k.mBypassed = false) :
    k.runsAnalysis frameCount
      = decide ((k.mFramesSinceLastFFT + frameCount) % 2 ^ 32 ≥ kFFTSize / 8) := by
  unfold keyqExtensionDSPKernel.runsAnalysis
  rw [hb]
  rfl

theorem performFFT_input_getD (v : VDSP α) (cm : CMath α) (k : keyqExtensionDSPKernel α)
    (hs : k.mFFTSetup = true) (i : Nat) (hi : i < kFFTSize) :
    (k.performFFT v cm).mFFTInputBuffer.getD i 0
      = k.mCircularBuffer.getD (k.readIndex i) 0 * k.mWindow.getD i 0 := by
  unfold keyqExtensionDSPKernel.performFFT
  rw [if_neg (by simp [hs])]
  simp only
  unfold overwrite
  rw [List.getD_eq_getElem?_getD,
    List.getElem?_append_left (by rw [List.length_map, List.length_range]; exact hi),
    List.getElem?_map, List.getElem?_range hi]
  rfl

/-- The newest sample of the buffer after pushing a non-empty list of samples. -/
theorem foldl_pushSample_newest (xs : List α) (x : α) (k : keyqExtensionDSPKernel α)
    (hlen : k.mCircularBuffer.length = kFFTSize)
    (hidx : k.mCircularBufferWriteIndex < kFFTSize) :
    ((xs ++ [x]).foldl keyqExtensionDSPKernel.pushSample k).mCircularBuffer.getD
        ((((xs ++ [x]).foldl keyqExtensionDSPKernel.pushSample k).mCircularBufferWriteIndex
          + (kFFTSize - 1)) % kFFTSize) 0
      = x := by
  rw [List.foldl_append, List.foldl_cons, List.foldl_nil]
  have h1 := foldl_pushSample_length xs k
  have h2 := foldl_pushSample_index_lt xs k hidx
  generalize xs.foldl keyqExtensionDSPKernel.pushSample k = P at h1 h2
  simp only [keyqExtensionDSPKernel.pushSample]
  have e : ((P.mCircularBufferWriteIndex + 1) % kFFTSize + (kFFTSize - 1)) % kFFTSize
      = P.mCircularBufferWriteIndex := by
    unfold kFFTSize at *
    omega
  rw [e]
  exact getD_set_self _ _ _ (by rw [h1, hlen]; exact h2)

theorem setupFFT_window_getD (v : VDSP α) (k : keyqExtensionDSPKernel α) (i : Nat)
    (hi : i < kFFTSize) :
    (k.setupFFT v).mWindow.getD i 0 = v.vDSP_hann_window kFFTSize i := by
  unfold keyqExtensionDSPKernel.setupFFT
  simp only
  rw [List.getD_eq_getElem?_getD, List.getElem?_map, List.getElem?_range hi]
  rfl

theorem runningKernel_window_getD (β : Type) [LinearOrderedField β] (i : Nat)
    (hi : i < kFFTSize) : (runningKernel β).mWindow.getD i 0 = 1 := by
  unfold runningKernel keyqExtensionDSPKernel.initialize
  rw [setupFFT_window_getD _ _ i hi]
  rfl

end FrameLemmas

section ProcessFrameLemmas

variable {α : Type} [LinearOrderedField α] [FloorRing α]

/-- The state after a `process` call that is not bypassed. -/
theorem process_eq (v : VDSP α) (cm : CMath α) (k : keyqExtensionDSPKernel α)
    (inputBuffers : List (List α)) (frameCount : Nat) (hb : k.mBypassed = false) :
    (k.process v cm inputBuffers frameCount).1
      = if (k.mFramesSinceLastFFT + frameCount) % 2 ^ 32 ≥ kFFTSize / 8 then
          keyqExtensionDSPKernel.detectPeaks cm
            (keyqExtensionDSPKernel.performFFT v cm
              { ((inputBuffers.headD []).take frameCount).foldl
                  keyqExtensionDSPKernel.pushSample k with mFramesSinceLastFFT := 0 })
        else
          { ((inputBuffers.headD []).take frameCount).foldl
              keyqExtensionDSPKernel.pushSample k with
            mFramesSinceLastFFT := (k.mFramesSinceLastFFT + frameCount) % 2 ^ 32 } := by
  have hf : (((inputBuffers.headD []).take frameCount).foldl
      keyqExtensionDSPKernel.pushSample k).mFramesSinceLastFFT = k.mFramesSinceLastFFT := by
    rw [foldl_pushSample_eq]
  unfold keyqExtensionDSPKernel.process
  rw [if_neg (by simp [hb])]
  simp only [hf]
  split <;> rfl

theorem process_bypassed (v : VDSP α) (cm : CMath α) (k : keyqExtensionDSPKernel α)
    (inputBuffers : List (List α)) (frameCount : Nat) (hb : k.mBypassed = true) :
    k.process v cm inputBuffers frameCount
      = (k, inputBuffers.map (fun channel => channel.take frameCount)) := by
  unfold keyqExtensionDSPKernel.process
  rw [if_pos hb]

theorem processAll_nil (v : VDSP α) (cm : CMath α) (k : keyqExtensionDSPKernel α) :
    k.processAll v cm [] = k := rfl

theorem processAll_cons (v : VDSP α) (cm : CMath α) (k : keyqExtensionDSPKernel α)
    (call : List (List α) × Nat) (calls : List (List (List α) × Nat)) :
    k.processAll v cm (call :: calls)
      = keyqExtensionDSPKernel.processAll v cm (k.process v cm call.1 call.2).1 calls := rfl

theorem processAll_bypassed (v : VDSP α) (cm : CMath α) (k : keyqExtensionDSPKernel α)
    (calls : List (List (List α) × Nat)) (hb : k.mBypassed = true) :
    k.processAll v cm calls = k := by
  induction calls with
  | nil => rfl
  | cons call calls ih => rw [processAll_cons, process_bypassed v cm k _ _ hb, ih]

theorem analysisCycles_bypassed (v : VDSP α) (cm : CMath α) (k : keyqExtensionDSPKernel α)
    (calls : List (List (List α) × Nat)) (hb : k.mBypassed = true) :
    k.analysisCycles v cm calls = 0 := by
  induction calls with
  | nil => rfl
  | cons call calls ih =>
    have hr : k.runsAnalysis call.2 = false := by
      simp [keyqExtensionDSPKernel.runsAnalysis, hb]
    rw [keyqExtensionDSPKernel.analysisCycles, hr, process_bypassed v cm k _ _ hb, ih]
    rfl

end ProcessFrameLemmas

section PartialFillLemmas

variable {α : Type} [LinearOrderedField α] [FloorRing α]

theorem process_index (v : VDSP α) (cm : CMath α) (k : keyqExtensionDSPKernel α)
    (inputBuffers : List (List α)) (frameCount : Nat) (hb : k.mBypassed = false)
    (hidx : k.mCircularBufferWriteIndex < kFFTSize) :
    (k.process v cm inputBuffers frameCount).1.mCircularBufferWriteIndex
      = (k.mCircularBufferWriteIndex + ((inputBuffers.headD []).take frameCount).length)
          % kFFTSize := by
  rw [(process_ring v cm k inputBuffers frameCount hb).2.1, foldl_pushSample_index _ k hidx]

theorem processAll_index (v : VDSP α) (cm : CMath α)
    (calls : List (List (List α) × Nat)) (k : keyqExtensionDSPKernel α)
    (hb : k.mBypassed = false) (hlen : k.mCircularBuffer.length = kFFTSize)
    (hidx : k.mCircularBufferWriteIndex < kFFTSize) :
    (k.processAll v cm calls).mCircularBufferWriteIndex
        = (k.mCircularBufferWriteIndex + (pushedSamples calls).length) % kFFTSize ∧
    (k.processAll v cm calls).mCircularBuffer.length = kFFTSize := by
  induction calls generalizing k with
  | nil =>
    rw [processAll_nil, pushedSamples_nil, List.length_nil, Nat.add_zero,
      Nat.mod_eq_of_lt hidx]
    exact ⟨rfl, hlen⟩
  | cons call calls ih =>
    have h := process_snapshot v cm k call.1 call.2 hb hlen hidx
    have hi := process_index v cm k call.1 call.2 hb hidx
    rw [processAll_cons, pushedSamples_cons, List.length_append]
    refine ⟨?_, (ih _ h.2.2.2 h.2.1 h.2.2.1).2⟩
    rw [(ih _ h.2.2.2 h.2.1 h.2.2.1).1, hi]
    unfold kFFTSize
    omega

end PartialFillLemmas

section PartialFillClaims

variable {α : Type} [LinearOrderedField α] [FloorRing α]

/-- C19: for a newly constructed and initialised kernel and every sequence of
non-bypassed `process` calls that pushes `M < 4096` samples in total, the write cursor
equals `M` and the chronological read consists of `4096 - M` zeros followed by the
`M` pushed samples in push order. In general (any `M`) the cursor equals `M mod 4096`,
is below 4096, and the buffer keeps its 4096 elements, so that every buffer index
written or read is in bounds. -/
theorem ring_buffer_partially_filled (v : VDSP α) (cm : CMath α) (ic oc : Int) (sr : α)
    (calls : List (List (List α) × Nat)) (hM : (pushedSamples calls).length < kFFTSize) :
    (keyqExtensionDSPKernel.processAll v cm
        ( keyqExtensionDSPKernel.initialize v {} ic oc sr) calls).mCircularBufferWriteIndex
      = (pushedSamples calls).length ∧
    (keyqExtensionDSPKernel.processAll v cm
        ( keyqExtensionDSPKernel.initialize v {} ic oc sr) calls).snapshot
      = List.replicate (kFFTSize - (pushedSamples calls).length) 0 ++ pushedSamples calls ∧
    (∀ more : List (List (List α) × Nat),
      (keyqExtensionDSPKernel.processAll v cm
          ( keyqExtensionDSPKernel.initialize v {} ic oc sr) more).mCircularBufferWriteIndex
        = (pushedSamples more).length % kFFTSize ∧
      (keyqExtensionDSPKernel.processAll v cm
          ( keyqExtensionDSPKernel.initialize v {} ic oc sr) more).mCircularBufferWriteIndex
        < kFFTSize ∧
      (keyqExtensionDSPKernel.processAll v cm
          ( keyqExtensionDSPKernel.initialize v {} ic oc sr) more).mCircularBuffer.length
        = kFFTSize) := by
  have hi := initialize_ring v ({} : keyqExtensionDSPKernel α) ic oc sr
  have hidx : ( keyqExtensionDSPKernel.initialize v ({} : keyqExtensionDSPKernel α)
      ic oc sr).mCircularBufferWriteIndex < kFFTSize := by
    rw [hi.2.1]
    unfold kFFTSize
    omega
  have hb : ( keyqExtensionDSPKernel.initialize v ({} : keyqExtensionDSPKernel α)
      ic oc sr).mBypassed = false := hi.2.2
  have hall : ∀ more : List (List (List α) × Nat),
      (keyqExtensionDSPKernel.processAll v cm
          ( keyqExtensionDSPKernel.initialize v {} ic oc sr) more).mCircularBufferWriteIndex
        = (pushedSamples more).length % kFFTSize ∧
      (keyqExtensionDSPKernel.processAll v cm
          ( keyqExtensionDSPKernel.initialize v {} ic oc sr) more).mCircularBuffer.length
        = kFFTSize := by
    intro more
    have h := processAll_index v cm more _ hb hi.1 hidx
    rw [hi.2.1, Nat.zero_add] at h
    exact h
  refine ⟨?_, ?_, ?_⟩
  · rw [(hall calls).1, Nat.mod_eq_of_lt hM]
  · rw [processAll_snapshot v cm calls _ hb hi.1 hidx, snapshot_new,
      List.drop_append_of_le_length (by rw [List.length_replicate]; exact Nat.le_of_lt hM),
      List.drop_replicate]
  · intro more
    refine ⟨(hall more).1, ?_, (hall more).2⟩
    rw [(hall more).1]
    exact Nat.mod_lt _ (by unfold kFFTSize; omega)

/-- Witness of `ring_buffer_partially_filled`: 1000 samples pushed by two calls of 600
and 400 frames. -/
theorem ring_buffer_partially_filled_witness :
    (pushedSamples
      [([List.replicate 600 (1 : ℝ)], 600), ([List.replicate 400 (2 : ℝ)], 400)]).length
      < kFFTSize ∧
    (keyqExtensionDSPKernel.processAll ⟨fun _ => true, fun _ _ => 1, fun _ z => z⟩ CMath.real
        ( keyqExtensionDSPKernel.initialize ⟨fun _ => true, fun _ _ => 1, fun _ z => z⟩
          {} 1 1 44100)
        [([List.replicate 600 (1 : ℝ)], 600),
          ([List.replicate 400 (2 : ℝ)], 400)]).mCircularBufferWriteIndex
      = (pushedSamples
          [([List.replicate 600 (1 : ℝ)], 600), ([List.replicate 400 (2 : ℝ)], 400)]).length :=
  have hM : (pushedSamples
      [([List.replicate 600 (1 : ℝ)], 600), ([List.replicate 400 (2 : ℝ)], 400)]).length
      < kFFTSize := by
    rw [pushedSamples_cons, pushedSamples_cons, pushedSamples_nil]
    simp only [List.headD_cons, List.length_append, List.length_take, List.length_replicate,
      List.length_nil]
    unfold kFFTSize
    omega
  ⟨hM, (ring_buffer_partially_filled _ _ 1 1 44100 _ hM).1⟩

end PartialFillClaims

section TeardownLemmas

variable {α : Type} [LinearOrderedField α] [FloorRing α]

theorem detectPeaks_congr (cm : CMath α) (k1 k2 : keyqExtensionDSPKernel α)
    (hm : k1.mFFTMagnitudes = k2.mFFTMagnitudes) (hs : k1.mSampleRate = k2.mSampleRate) :
    (k1.detectPeaks cm).mDetectedPeaks = (k2.detectPeaks cm).mDetectedPeaks := by
  have h : k1.peakAt cm = k2.peakAt cm := by
    funext i
    unfold keyqExtensionDSPKernel.peakAt keyqExtensionDSPKernel.binFrequency
    rw [hm, hs]
  unfold keyqExtensionDSPKernel.detectPeaks
  simp only [h]

theorem detectPeaks_frame (cm : CMath α) (k : keyqExtensionDSPKernel α) :
    (k.detectPeaks cm).mFFTSetup = k.mFFTSetup ∧
    (k.detectPeaks cm).mFFTMagnitudes = k.mFFTMagnitudes ∧
    (k.detectPeaks cm).mSampleRate = k.mSampleRate ∧
    (k.detectPeaks cm).mFramesSinceLastFFT = k.mFramesSinceLastFFT :=
  ⟨rfl, rfl, rfl, rfl⟩

/-- A `process` call on a kernel without a transform setup. -/
theorem process_without_setup (v : VDSP α) (cm : CMath α) (k : keyqExtensionDSPKernel α)
    (inputBuffers : List (List α)) (frameCount : Nat) (hb : k.mBypassed = false)
    (hs : k.mFFTSetup = false) :
    (k.process v cm inputBuffers frameCount).1.mFFTSetup = false ∧
    (k.process v cm inputBuffers frameCount).1.mFFTMagnitudes = k.mFFTMagnitudes ∧
    (k.process v cm inputBuffers frameCount).1.mSampleRate = k.mSampleRate ∧
    ((k.process v cm inputBuffers frameCount).1.mDetectedPeaks = k.mDetectedPeaks ∨
      (k.process v cm inputBuffers frameCount).1.mDetectedPeaks
        = (k.detectPeaks cm).mDetectedPeaks) := by
  have hP := foldl_pushSample_eq ((inputBuffers.headD []).take frameCount) k
  rw [process_eq v cm k inputBuffers frameCount hb]
  generalize ((inputBuffers.headD []).take frameCount).foldl
    keyqExtensionDSPKernel.pushSample k = P at hP
  have h1 : P.mFFTSetup = k.mFFTSetup := by rw [hP]
  have h2 : P.mFFTMagnitudes = k.mFFTMagnitudes := by rw [hP]
  have h3 : P.mSampleRate = k.mSampleRate := by rw [hP]
  have h4 : P.mDetectedPeaks = k.mDetectedPeaks := by rw [hP]
  split
  · have hX : ({ P with mFramesSinceLastFFT := 0 } : keyqExtensionDSPKernel α).mFFTSetup
        = false := h1.trans hs
    rw [performFFT_without_setup v cm _ hX]
    exact ⟨hX, h2, h3, Or.inr (detectPeaks_congr cm _ k h2 h3)⟩
  · exact ⟨h1.trans hs, h2, h3, Or.inl h4⟩

theorem detectPeaks_quiet (cm : CMath α) (k : keyqExtensionDSPKernel α)
    (hq : ∀ i, kMinBin + 1 ≤ i → i < kFFTSizeOver2 - 1 →
      k.mFFTMagnitudes.getD i 0 ≤ kPeakThresholdDB) :
    (k.detectPeaks cm).mDetectedPeaks = [] := by
  rw [List.eq_nil_iff_forall_not_mem]
  intro p hp
  obtain ⟨i, hi, -⟩ := mem_detectPeaks cm k p hp
  rw [mem_qualifyingBins] at hi
  exact absurd hi.2.1 (not_lt.mpr (hq i hi.1.1 hi.1.2))

theorem getD_replicate_lt {β : Type} [Zero β] (n i : Nat) (x : β) (h : i < n) :
    (List.replicate n x).getD i 0 = x := by
  rw [List.getD_eq_getElem?_getD, List.getElem?_replicate, if_pos h]
  rfl

theorem detectPeaks_silent (cm : CMath α) (k : keyqExtensionDSPKernel α)
    (hm : k.mFFTMagnitudes = List.replicate kFFTSizeOver2 (-160)) :
    (k.detectPeaks cm).mDetectedPeaks = [] := by
  apply detectPeaks_quiet
  intro i _ h2
  rw [hm, getD_replicate_lt _ _ _ (by omega)]
  unfold kPeakThresholdDB
  norm_num

/-- A kernel without setup, with the silent spectrum and no peak, stays so. -/
theorem processAll_inert (v : VDSP α) (cm : CMath α)
    (calls : List (List (List α) × Nat)) (k : keyqExtensionDSPKernel α)
    (hb : k.mBypassed = false) (hs : k.mFFTSetup = false)
    (hm : k.mFFTMagnitudes = List.replicate kFFTSizeOver2 (-160))
    (hp : k.mDetectedPeaks = []) :
    (k.processAll v cm calls).mFFTSetup = false ∧
    (k.processAll v cm calls).mFFTMagnitudes = List.replicate kFFTSizeOver2 (-160) ∧
    (k.processAll v cm calls).mDetectedPeaks = [] := by
  induction calls generalizing k with
  | nil => exact ⟨hs, hm, hp⟩
  | cons call calls ih =>
    have h := process_without_setup v cm k call.1 call.2 hb hs
    have hb2 := (process_ring v cm k call.1 call.2 hb).2.2
    rw [processAll_cons]
    refine ih _ hb2 h.1 (h.2.1.trans hm) ?_
    rcases h.2.2.2 with h3 | h3
    · exact h3.trans hp
    · exact h3.trans (detectPeaks_silent cm k hm)

theorem processAll_without_setup (v : VDSP α) (cm : CMath α)
    (calls : List (List (List α) × Nat)) (k : keyqExtensionDSPKernel α)
    (hb : k.mBypassed = false) (hs : k.mFFTSetup = false) :
    (k.processAll v cm calls).mFFTSetup = false ∧
    (k.processAll v cm calls).mFFTMagnitudes = k.mFFTMagnitudes := by
  induction calls generalizing k with
  | nil => exact ⟨hs, rfl⟩
  | cons call calls ih =>
    have h := process_without_setup v cm k call.1 call.2 hb hs
    have hb2 := (process_ring v cm k call.1 call.2 hb).2.2
    rw [processAll_cons]
    exact ⟨(ih _ hb2 h.1).1, (ih _ hb2 h.1).2.trans h.2.1⟩

end TeardownLemmas

section TeardownClaims

variable {α : Type} [LinearOrderedField α] [FloorRing α]

/-- C13: for a newly constructed kernel whose `initialize` call fails to create the
transform setup (`vDSP_create_fftsetup` returns null, so `mFFTSetup` stays null),
after every sequence of `process` calls with arbitrary samples the spectrum still
holds -160 dB in each of its 2048 bins, the peak list is empty, `getPeakCount` is 0
and every peak getter returns 0 for every index. -/
theorem failed_initialisation_inert (v : VDSP α) (cm : CMath α) (ic oc : Int) (sr : α)
    (calls : List (List (List α) × Nat))
    (hfail : v.vDSP_create_fftsetup (Nat.log2 kFFTSize) = false) :
    (keyqExtensionDSPKernel.processAll v cm
      ( keyqExtensionDSPKernel.initialize v {} ic oc sr) calls).mFFTSetup = false ∧
    (keyqExtensionDSPKernel.processAll v cm
      ( keyqExtensionDSPKernel.initialize v {} ic oc sr) calls).mFFTMagnitudes
        = List.replicate kFFTSizeOver2 (-160) ∧
    (keyqExtensionDSPKernel.processAll v cm
      ( keyqExtensionDSPKernel.initialize v {} ic oc sr) calls).mDetectedPeaks = [] ∧
    (keyqExtensionDSPKernel.processAll v cm
      ( keyqExtensionDSPKernel.initialize v {} ic oc sr) calls).getPeakCount = 0 ∧
    ∀ index : Nat,
      (keyqExtensionDSPKernel.processAll v cm
        ( keyqExtensionDSPKernel.initialize v {} ic oc sr) calls).getPeakFrequency index = 0 ∧
      (keyqExtensionDSPKernel.processAll v cm
        ( keyqExtensionDSPKernel.initialize v {} ic oc sr) calls).getPeakMagnitude index = 0 ∧
      (keyqExtensionDSPKernel.processAll v cm
        ( keyqExtensionDSPKernel.initialize v {} ic oc sr) calls).getPeakMidiNote index = 0 ∧
      (keyqExtensionDSPKernel.processAll v cm
        ( keyqExtensionDSPKernel.initialize v {} ic oc sr) calls).getPeakNoteIndex index = 0 ∧
      (keyqExtensionDSPKernel.processAll v cm
        ( keyqExtensionDSPKernel.initialize v {} ic oc sr) calls).getPeakOctave index = 0 ∧
      (keyqExtensionDSPKernel.processAll v cm
        ( keyqExtensionDSPKernel.initialize v {} ic oc sr) calls).getPeakCents index = 0 := by
  have hm : ( keyqExtensionDSPKernel.initialize v ({} : keyqExtensionDSPKernel α)
      ic oc sr).mFFTMagnitudes = List.replicate kFFTSizeOver2 (-160) := by
    show resize ([] : List α) kFFTSizeOver2 (-160) = _
    unfold resize
    rw [List.take_nil, List.nil_append, List.length_nil, Nat.sub_zero]
  have h := processAll_inert v cm calls
    ( keyqExtensionDSPKernel.initialize v ({} : keyqExtensionDSPKernel α) ic oc sr)
    rfl hfail hm rfl
  generalize keyqExtensionDSPKernel.processAll v cm
    ( keyqExtensionDSPKernel.initialize v ({} : keyqExtensionDSPKernel α) ic oc sr) calls
    = k at h
  have hn : ∀ index : Nat, ¬ index < k.mDetectedPeaks.length := by
    intro index
    rw [h.2.2]
    exact Nat.not_lt_zero index
  refine ⟨h.1, h.2.1, h.2.2, ?_, ?_⟩
  · unfold keyqExtensionDSPKernel.getPeakCount
    rw [h.2.2]
    rfl
  · intro index
    simp only [keyqExtensionDSPKernel.getPeakFrequency, keyqExtensionDSPKernel.getPeakMagnitude,
      keyqExtensionDSPKernel.getPeakMidiNote, keyqExtensionDSPKernel.getPeakNoteIndex,
      keyqExtensionDSPKernel.getPeakOctave, keyqExtensionDSPKernel.getPeakCents,
      dif_neg (hn index), and_self]

/-- Witness of `failed_initialisation_inert`: setup creation fails and 600 samples of
value 1 are pushed. -/
theorem failed_initialisation_inert_witness :
    (⟨fun _ => false, fun _ _ => 1, fun _ z => z⟩ : VDSP ℝ).vDSP_create_fftsetup
      (Nat.log2 kFFTSize) = false ∧
    (keyqExtensionDSPKernel.processAll ⟨fun _ => false, fun _ _ => 1, fun _ z => z⟩
      CMath.real
      ( keyqExtensionDSPKernel.initialize ⟨fun _ => false, fun _ _ => 1, fun _ z => z⟩
        {} 1 1 44100)
      [([List.replicate 600 (1 : ℝ)], 600)]).mDetectedPeaks = [] :=
  ⟨rfl, (failed_initialisation_inert ⟨fun _ => false, fun _ _ => 1, fun _ z => z⟩
    CMath.real 1 1 44100 [([List.replicate 600 (1 : ℝ)], 600)] rfl).2.2.1⟩

/-- C14, as amended: after `deInitialize`, every `process` call that is not bypassed
leaves the spectrum unchanged (`performFFT` returns at once, the setup being null), over
any sequence of calls; the ring buffer and the write cursor still take the samples of
the call, and the peak list is either kept or recomputed by `detectPeaks` from the
unchanged spectrum, so that it stays the same when it was the result of `detectPeaks`
on that spectrum. -/
theorem teardown_keeps_spectrum (v : VDSP α) (cm : CMath α) (k : keyqExtensionDSPKernel α)
    (inputBuffers : List (List α)) (frameCount : Nat) (hb : k.mBypassed = false) :
    k.deInitialize.mFFTSetup = false ∧
    (k.deInitialize.process v cm inputBuffers frameCount).1.mFFTSetup = false ∧
    (k.deInitialize.process v cm inputBuffers frameCount).1.mFFTMagnitudes
      = k.mFFTMagnitudes ∧
    (∀ calls, (k.deInitialize.processAll v cm calls).mFFTMagnitudes = k.mFFTMagnitudes) ∧
    (k.deInitialize.process v cm inputBuffers frameCount).1.mCircularBuffer
      = (((inputBuffers.headD []).take frameCount).foldl
          keyqExtensionDSPKernel.pushSample k).mCircularBuffer ∧
    (k.deInitialize.process v cm inputBuffers frameCount).1.mCircularBufferWriteIndex
      = (((inputBuffers.headD []).take frameCount).foldl
          keyqExtensionDSPKernel.pushSample k).mCircularBufferWriteIndex ∧
    ((k.deInitialize.process v cm inputBuffers frameCount).1.mDetectedPeaks
        = k.mDetectedPeaks ∨
      (k.deInitialize.process v cm inputBuffers frameCount).1.mDetectedPeaks
        = (k.detectPeaks cm).mDetectedPeaks) ∧
    (k.mDetectedPeaks = (k.detectPeaks cm).mDetectedPeaks →
      (k.deInitialize.process v cm inputBuffers frameCount).1.mDetectedPeaks
        = k.mDetectedPeaks) := by
  have hd := deInitialize_eq k
  have hs : k.deInitialize.mFFTSetup = false := by rw [hd]
  have hb2 : k.deInitialize.mBypassed = false := by
    rw [hd]
    exact hb
  have hm : k.deInitialize.mFFTMagnitudes = k.mFFTMagnitudes := by rw [hd]
  have hp : k.deInitialize.mDetectedPeaks = k.mDetectedPeaks := by rw [hd]
  have hr : k.deInitialize.mSampleRate = k.mSampleRate := by rw [hd]
  have h := process_without_setup v cm k.deInitialize inputBuffers frameCount hb2 hs
  have hring := process_ring v cm k.deInitialize inputBuffers frameCount hb2
  have hfold := fun xs : List α =>
    foldl_pushSample_congr xs k.deInitialize k (by rw [hd]) (by rw [hd])
  have hdet : (k.deInitialize.detectPeaks cm).mDetectedPeaks
      = (k.detectPeaks cm).mDetectedPeaks := detectPeaks_congr cm _ k hm hr
  have hor : (k.deInitialize.process v cm inputBuffers frameCount).1.mDetectedPeaks
        = k.mDetectedPeaks ∨
      (k.deInitialize.process v cm inputBuffers frameCount).1.mDetectedPeaks
        = (k.detectPeaks cm).mDetectedPeaks := by
    rcases h.2.2.2 with h3 | h3
    · exact Or.inl (h3.trans hp)
    · exact Or.inr (h3.trans hdet)
  refine ⟨hs, h.1, h.2.1.trans hm, ?_, hring.1.trans (hfold _).1,
    hring.2.1.trans (hfold _).2, hor, ?_⟩
  · intro calls
    exact (processAll_without_setup v cm calls _ hb2 hs).2.trans hm
  · intro heq
    rcases hor with h3 | h3
    · exact h3
    · exact h3.trans heq.symm

/-- Witness of `teardown_keeps_spectrum`: an initialised kernel, torn down, then one
call with a single frame. -/
theorem teardown_keeps_spectrum_witness :
    (runningKernel ℝ).mBypassed = false ∧
    ((runningKernel ℝ).deInitialize.process (standInVDSP ℝ) CMath.real [[1]] 1).1.mFFTMagnitudes
      = (runningKernel ℝ).mFFTMagnitudes :=
  ⟨rfl, (teardown_keeps_spectrum (standInVDSP ℝ) CMath.real (runningKernel ℝ) [[1]] 1 rfl).2.2.1⟩

/-- C14 fails as stated: an initialised kernel (setup present, buffer of 4096 zeros,
cursor 0) is torn down and then processes one frame holding the sample 1, not
bypassed; the call writes the sample to `mCircularBuffer[0]` and advances the write
cursor from 0 to 1, so the ring buffer and the cursor are not the same after the call
as before it. -/
theorem teardown_counterexample :
    (runningKernel ℝ).mFFTSetup = true ∧
    (runningKernel ℝ).deInitialize.mFFTSetup = false ∧
    (runningKernel ℝ).deInitialize.mBypassed = false ∧
    (runningKernel ℝ).deInitialize.mCircularBufferWriteIndex = 0 ∧
    ((runningKernel ℝ).deInitialize.process (standInVDSP ℝ) CMath.real
      [[1]] 1).1.mCircularBufferWriteIndex = 1 ∧
    (runningKernel ℝ).deInitialize.mCircularBuffer.getD 0 0 = 0 ∧
    ((runningKernel ℝ).deInitialize.process (standInVDSP ℝ) CMath.real
      [[1]] 1).1.mCircularBuffer.getD 0 0 = 1 ∧
    ((runningKernel ℝ).deInitialize.process (standInVDSP ℝ) CMath.real
      [[1]] 1).1.mCircularBuffer ≠ (runningKernel ℝ).deInitialize.mCircularBuffer := by
  have hd := deInitialize_eq (runningKernel ℝ)
  have hb : (runningKernel ℝ).deInitialize.mBypassed = false := by
    rw [hd]
    rfl
  have hi : (runningKernel ℝ).deInitialize.mCircularBufferWriteIndex = 0 := by
    rw [hd]
    rfl
  have hbuf : (runningKernel ℝ).deInitialize.mCircularBuffer = List.replicate kFFTSize 0 := by
    rw [hd]
    show resize ([] : List ℝ) kFFTSize 0 = _
    unfold resize
    rw [List.take_nil, List.nil_append, List.length_nil, Nat.sub_zero]
  have hring := process_ring (standInVDSP ℝ) CMath.real (runningKernel ℝ).deInitialize
    [[1]] 1 hb
  have hfold : (([[1]] : List (List ℝ)).headD []).take 1 = [1] := rfl
  rw [hfold, List.foldl_cons, List.foldl_nil] at hring
  have h0 : (runningKernel ℝ).deInitialize.mCircularBuffer.getD 0 0 = 0 := by
    rw [hbuf]
    exact getD_replicate_lt _ _ _ (by unfold kFFTSize; omega)
  have h1 : ((runningKernel ℝ).deInitialize.process (standInVDSP ℝ) CMath.real
      [[1]] 1).1.mCircularBuffer.getD 0 0 = 1 := by
    rw [hring.1]
    simp only [keyqExtensionDSPKernel.pushSample, hi]
    exact getD_set_self _ _ _ (by rw [hbuf, List.length_replicate]; unfold kFFTSize; omega)
  refine ⟨rfl, by rw [hd], hb, hi, ?_, h0, h1, ?_⟩
  · rw [hring.2.1]
    simp only [keyqExtensionDSPKernel.pushSample, hi]
    rfl
  · intro heq
    rw [heq, h0] at h1
    exact zero_ne_one h1

end TeardownClaims

section CadenceLemmas

variable {α : Type} [LinearOrderedField α] [FloorRing α]

theorem process_counter (v : VDSP α) (cm : CMath α) (k : keyqExtensionDSPKernel α)
    (inputBuffers : List (List α)) (frameCount : Nat) (hb : k.mBypassed = false) :
    (k.process v cm inputBuffers frameCount).1.mFramesSinceLastFFT
      = if (k.mFramesSinceLastFFT + frameCount) % 2 ^ 32 ≥ kFFTSize / 8 then 0
        else (k.mFramesSinceLastFFT + frameCount) % 2 ^ 32 := by
  rw [process_eq v cm k inputBuffers frameCount hb]
  split
  · rw [(detectPeaks_frame cm _).2.2.2, performFFT_counter]
  · rfl

theorem analysisCycles_cons (v : VDSP α) (cm : CMath α) (k : keyqExtensionDSPKernel α)
    (call : List (List α) × Nat) (calls : List (List (List α) × Nat)) :
    k.analysisCycles v cm (call :: calls)
      = (if k.runsAnalysis call.2 then 1 else 0)
        + keyqExtensionDSPKernel.analysisCycles v cm (k.process v cm call.1 call.2).1 calls :=
  rfl

theorem deliveredFrames_cons {β : Type} (call : List (List β) × Nat)
    (calls : List (List (List β) × Nat)) :
    deliveredFrames (call :: calls) = call.2 + deliveredFrames calls := by
  unfold deliveredFrames
  rw [List.map_cons, List.sum_cons]

/-- Every analysis cycle uses up at least `kFFTSize / 8` delivered frames. -/
theorem analysisCycles_bound (v : VDSP α) (cm : CMath α)
    (calls : List (List (List α) × Nat)) (k : keyqExtensionDSPKernel α)
    (hb : k.mBypassed = false) :
    kFFTSize / 8 * k.analysisCycles v cm calls ≤ k.mFramesSinceLastFFT + deliveredFrames calls := by
  induction calls generalizing k with
  | nil => exact Nat.zero_le _
  | cons call calls ih =>
    have hb2 := (process_ring v cm k call.1 call.2 hb).2.2
    have hc := process_counter v cm k call.1 call.2 hb
    have h := ih _ hb2
    rw [analysisCycles_cons, deliveredFrames_cons, runsAnalysis_eq k call.2 hb]
    rw [hc] at h
    have hmod : (k.mFramesSinceLastFFT + call.2) % 2 ^ 32 ≤ k.mFramesSinceLastFFT + call.2 :=
      Nat.mod_le _ _
    generalize keyqExtensionDSPKernel.analysisCycles v cm
      (k.process v cm call.1 call.2).1 calls = n at h
    generalize (k.mFramesSinceLastFFT + call.2) % 2 ^ 32 = c at h hmod
    unfold kFFTSize at *
    by_cases ht : c ≥ 4096 / 8
    · rw [if_pos ht] at h
      rw [decide_eq_true ht, if_pos rfl]
      omega
    · rw [if_neg ht] at h
      rw [decide_eq_false ht, if_neg (by simp)]
      omega

/-- With calls of one frame count that divides `kFFTSize / 8`, the counter reaches
`kFFTSize / 8` exactly. -/
theorem analysisCycles_uniform (v : VDSP α) (cm : CMath α) (d : Nat)
    (hd : d ∣ kFFTSize / 8) (calls : List (List (List α) × Nat))
    (hu : ∀ call ∈ calls, call.2 = d) (k : keyqExtensionDSPKernel α)
    (hb : k.mBypassed = false) (hdc : d ∣ k.mFramesSinceLastFFT)
    (hlt : k.mFramesSinceLastFFT < kFFTSize / 8) :
    k.analysisCycles v cm calls
      = (k.mFramesSinceLastFFT + deliveredFrames calls) / (kFFTSize / 8) := by
  induction calls generalizing k with
  | nil =>
    rw [keyqExtensionDSPKernel.analysisCycles]
    have : deliveredFrames ([] : List (List (List α) × Nat)) = 0 := rfl
    rw [this, Nat.add_zero, Nat.div_eq_of_lt hlt]
  | cons call calls ih =>
    obtain ⟨bufs, n⟩ := call
    have hcall : n = d := hu (bufs, n) (List.mem_cons_self _ _)
    subst hcall
    have hu2 : ∀ c ∈ calls, c.2 = n := fun c hc2 => hu c (List.mem_cons_of_mem _ hc2)
    have hb2 := (process_ring v cm k bufs n hb).2.2
    have hc := process_counter v cm k bufs n hb
    have hle : k.mFramesSinceLastFFT + n ≤ kFFTSize / 8 := by
      have h1 : n ∣ kFFTSize / 8 - k.mFramesSinceLastFFT := Nat.dvd_sub' hd hdc
      have h2 := Nat.le_of_dvd (Nat.sub_pos_of_lt hlt) h1
      omega
    have hmod : (k.mFramesSinceLastFFT + n) % 2 ^ 32 = k.mFramesSinceLastFFT + n := by
      apply Nat.mod_eq_of_lt
      unfold kFFTSize at hle
      omega
    rw [hmod] at hc
    rw [analysisCycles_cons, deliveredFrames_cons, runsAnalysis_eq k _ hb]
    simp only [hmod]
    by_cases ht : k.mFramesSinceLastFFT + n ≥ kFFTSize / 8
    · rw [if_pos ht] at hc
      have hdiv : n ∣ (k.process v cm bufs n).1.mFramesSinceLastFFT := by
        rw [hc]
        exact Nat.dvd_zero n
      have hlt2 : (k.process v cm bufs n).1.mFramesSinceLastFFT < kFFTSize / 8 := by
        rw [hc]
        unfold kFFTSize
        omega
      rw [decide_eq_true ht, if_pos rfl, ih hu2 _ hb2 hdiv hlt2, hc]
      have he : k.mFramesSinceLastFFT + n = kFFTSize / 8 := Nat.le_antisymm hle ht
      generalize deliveredFrames calls = t
      unfold kFFTSize at *
      omega
    · rw [if_neg ht] at hc
      have hdiv : n ∣ (k.process v cm bufs n).1.mFramesSinceLastFFT := by
        rw [hc]
        exact Nat.dvd_add hdc (Nat.dvd_refl n)
      have hlt2 : (k.process v cm bufs n).1.mFramesSinceLastFFT < kFFTSize / 8 := by
        rw [hc]
        omega
      rw [decide_eq_false ht, if_neg (by simp), ih hu2 _ hb2 hdiv hlt2, hc]
      generalize deliveredFrames calls = t
      unfold kFFTSize at *
      omega

theorem processAll_single (v : VDSP α) (cm : CMath α) (k : keyqExtensionDSPKernel α)
    (inputBuffers : List (List α)) (frameCount : Nat) :
    k.processAll v cm [(inputBuffers, frameCount)]
      = (k.process v cm inputBuffers frameCount).1 := rfl

theorem processAll_not_bypassed (v : VDSP α) (cm : CMath α)
    (calls : List (List (List α) × Nat)) (k : keyqExtensionDSPKernel α)
    (hb : k.mBypassed = false) :
    (k.processAll v cm calls).mBypassed = false := by
  induction calls generalizing k with
  | nil => exact hb
  | cons call calls ih =>
    rw [processAll_cons]
    exact ih _ (process_ring v cm k call.1 call.2 hb).2.2

end CadenceLemmas

section CadenceClaims

variable {α : Type} [LinearOrderedField α] [FloorRing α]

/-- C12, as amended: with `R = kFFTSize / 8 = 512`, a `process` call on a kernel that is
not bypassed pushes its frames and adds the frame count to `mFramesSinceLastFFT`
(modulo `2 ^ 32`). When the counter has then reached `R`, the call sets it to 0 and
runs one analysis cycle: the state it returns is that of `detectPeaks` after
`performFFT`; otherwise the call returns the state with the pushed frames and the new
counter, with the spectrum, the transform input and the peak list untouched. So, on an
initialised kernel and for every sequence of calls, no call runs more than one cycle;
after `T` delivered samples at most `floor (T / R)` cycles have run; and exactly
`floor (T / R)` when all calls deliver one and the same frame count and that count
divides `R`. -/
theorem analysis_cadence (v : VDSP α) (cm : CMath α) (k0 : keyqExtensionDSPKernel α)
    (ic oc : Int) (sr : α) (calls : List (List (List α) × Nat)) (hb : k0.mBypassed = false) :
    (∀ (k : keyqExtensionDSPKernel α) (inputBuffers : List (List α)) (frameCount : Nat),
      k.mBypassed = false →
      (k.runsAnalysis frameCount = true
        ↔ (k.mFramesSinceLastFFT + frameCount) % 2 ^ 32 ≥ kFFTSize / 8) ∧
      (k.runsAnalysis frameCount = true →
        (k.process v cm inputBuffers frameCount).1
          = keyqExtensionDSPKernel.detectPeaks cm
              (keyqExtensionDSPKernel.performFFT v cm
                { ((inputBuffers.headD []).take frameCount).foldl
                    keyqExtensionDSPKernel.pushSample k with mFramesSinceLastFFT := 0 }) ∧
        (k.process v cm inputBuffers frameCount).1.mFramesSinceLastFFT = 0) ∧
      (k.runsAnalysis frameCount = false →
        (k.process v cm inputBuffers frameCount).1
          = { ((inputBuffers.headD []).take frameCount).foldl
                keyqExtensionDSPKernel.pushSample k with
              mFramesSinceLastFFT := (k.mFramesSinceLastFFT + frameCount) % 2 ^ 32 } ∧
        (k.process v cm inputBuffers frameCount).1.mFramesSinceLastFFT
          = (k.mFramesSinceLastFFT + frameCount) % 2 ^ 32 ∧
        (k.process v cm inputBuffers frameCount).1.mFFTMagnitudes = k.mFFTMagnitudes ∧
        (k.process v cm inputBuffers frameCount).1.mFFTInputBuffer = k.mFFTInputBuffer ∧
        (k.process v cm inputBuffers frameCount).1.mDetectedPeaks = k.mDetectedPeaks) ∧
      (k.process v cm inputBuffers frameCount).1.mBypassed = false) ∧
    (∀ (k : keyqExtensionDSPKernel α) (call : List (List α) × Nat)
        (more : List (List (List α) × Nat)),
      k.analysisCycles v cm (call :: more)
        = (if k.runsAnalysis call.2 then 1 else 0)
          + keyqExtensionDSPKernel.analysisCycles v cm (k.process v cm call.1 call.2).1 more) ∧
    (∀ called : List (List (List α) × Nat),
      (keyqExtensionDSPKernel.processAll v cm
        ( keyqExtensionDSPKernel.initialize v k0 ic oc sr) called).mBypassed = false) ∧
    (∀ (k : keyqExtensionDSPKernel α) (call : List (List α) × Nat),
      k.analysisCycles v cm [call] ≤ 1) ∧
    keyqExtensionDSPKernel.analysisCycles v cm
        ( keyqExtensionDSPKernel.initialize v k0 ic oc sr) calls
      ≤ deliveredFrames calls / (kFFTSize / 8) ∧
    (∀ d, d ∣ kFFTSize / 8 → (∀ call ∈ calls, call.2 = d) →
      keyqExtensionDSPKernel.analysisCycles v cm
          ( keyqExtensionDSPKernel.initialize v k0 ic oc sr) calls
        = deliveredFrames calls / (kFFTSize / 8)) := by
  have hb2 : ( keyqExtensionDSPKernel.initialize v k0 ic oc sr).mBypassed = false := hb
  have hc : ( keyqExtensionDSPKernel.initialize v k0 ic oc sr).mFramesSinceLastFFT = 0 := rfl
  refine ⟨?_, ?_, ?_, ?_, ?_, ?_⟩
  · intro k inputBuffers frameCount hbk
    have hiff : k.runsAnalysis frameCount = true
        ↔ (k.mFramesSinceLastFFT + frameCount) % 2 ^ 32 ≥ kFFTSize / 8 := by
      rw [runsAnalysis_eq k frameCount hbk, decide_eq_true_iff]
    have heq := process_eq v cm k inputBuffers frameCount hbk
    have hcount := process_counter v cm k inputBuffers frameCount hbk
    have hP := foldl_pushSample_eq ((inputBuffers.headD []).take frameCount) k
    refine ⟨hiff, ?_, ?_, (process_ring v cm k inputBuffers frameCount hbk).2.2⟩
    · intro hrun
      rw [if_pos (hiff.mp hrun)] at heq hcount
      exact ⟨heq, hcount⟩
    · intro hrun
      have hnot : ¬ (k.mFramesSinceLastFFT + frameCount) % 2 ^ 32 ≥ kFFTSize / 8 := by
        intro h
        rw [hiff.mpr h] at hrun
        exact Bool.noConfusion hrun
      rw [if_neg hnot] at heq hcount
      refine ⟨heq, hcount, ?_, ?_, ?_⟩
      · rw [heq]
        generalize ((inputBuffers.headD []).take frameCount).foldl
          keyqExtensionDSPKernel.pushSample k = P at hP
        show P.mFFTMagnitudes = k.mFFTMagnitudes
        rw [hP]
      · rw [heq]
        generalize ((inputBuffers.headD []).take frameCount).foldl
          keyqExtensionDSPKernel.pushSample k = P at hP
        show P.mFFTInputBuffer = k.mFFTInputBuffer
        rw [hP]
      · rw [heq]
        generalize ((inputBuffers.headD []).take frameCount).foldl
          keyqExtensionDSPKernel.pushSample k = P at hP
        show P.mDetectedPeaks = k.mDetectedPeaks
        rw [hP]
  · intro k call more
    exact analysisCycles_cons v cm k call more
  · intro called
    exact processAll_not_bypassed v cm called _ hb2
  · intro k call
    rw [analysisCycles_cons]
    have h0 : keyqExtensionDSPKernel.analysisCycles v cm
        (k.process v cm call.1 call.2).1 [] = 0 := rfl
    rw [h0]
    split <;> omega
  · have h := analysisCycles_bound v cm calls _ hb2
    rw [hc, Nat.zero_add] at h
    rw [Nat.le_div_iff_mul_le (by unfold kFFTSize; omega), Nat.mul_comm]
    exact h
  · intro d hd hu
    have h := analysisCycles_uniform v cm d hd calls hu _ hb2 (hc ▸ Nat.dvd_zero d)
      (by rw [hc]; unfold kFFTSize; omega)
    rw [hc, Nat.zero_add] at h
    exact h

/-- Witness of `analysis_cadence`: three calls of 256 frames on a newly constructed,
initialised kernel. -/
theorem analysis_cadence_witness :
    ({} : keyqExtensionDSPKernel ℝ).mBypassed = false ∧
    keyqExtensionDSPKernel.analysisCycles (standInVDSP ℝ) CMath.real
        ( keyqExtensionDSPKernel.initialize (standInVDSP ℝ) {} 1 1 44100)
        [([List.replicate 256 0], 256), ([List.replicate 256 0], 256),
          ([List.replicate 256 0], 256)]
      ≤ deliveredFrames
          [([List.replicate 256 (0 : ℝ)], 256), ([List.replicate 256 0], 256),
            ([List.replicate 256 0], 256)] / (kFFTSize / 8) :=
  ⟨rfl, (analysis_cadence (standInVDSP ℝ) CMath.real {} 1 1 44100
    [([List.replicate 256 0], 256), ([List.replicate 256 0], 256),
      ([List.replicate 256 0], 256)] rfl).2.2.2.2.1⟩

/-- C12 fails as stated: on a newly constructed, initialised kernel one `process` call
that delivers 1024 frames of the sample 1 runs a single analysis cycle, whereas
`floor (1024 / 512) = 2`: the state it returns is that of one `detectPeaks` after one
`performFFT`, with the frame counter back at 0, and the transform input, all zeros
before the call, then holds the newest sample in its last element. -/
theorem analysis_cadence_counterexample :
    (runningKernel ℝ).mBypassed = false ∧
    deliveredFrames [([List.replicate 1023 (1 : ℝ) ++ [1]], 1024)] = 1024 ∧
    deliveredFrames [([List.replicate 1023 (1 : ℝ) ++ [1]], 1024)] / (kFFTSize / 8) = 2 ∧
    keyqExtensionDSPKernel.processAll (standInVDSP ℝ) CMath.real (runningKernel ℝ)
        [([List.replicate 1023 (1 : ℝ) ++ [1]], 1024)]
      = keyqExtensionDSPKernel.detectPeaks CMath.real
          (keyqExtensionDSPKernel.performFFT (standInVDSP ℝ) CMath.real
            { (List.replicate 1023 (1 : ℝ) ++ [1]).foldl
                keyqExtensionDSPKernel.pushSample (runningKernel ℝ) with
              mFramesSinceLastFFT := 0 }) ∧
    (keyqExtensionDSPKernel.processAll (standInVDSP ℝ) CMath.real (runningKernel ℝ)
      [([List.replicate 1023 (1 : ℝ) ++ [1]], 1024)]).mFramesSinceLastFFT = 0 ∧
    (runningKernel ℝ).mFFTInputBuffer.getD 4095 0 = 0 ∧
    (keyqExtensionDSPKernel.processAll (standInVDSP ℝ) CMath.real (runningKernel ℝ)
      [([List.replicate 1023 (1 : ℝ) ++ [1]], 1024)]).mFFTInputBuffer.getD 4095 0 = 1 ∧
    keyqExtensionDSPKernel.analysisCycles (standInVDSP ℝ) CMath.real (runningKernel ℝ)
      [([List.replicate 1023 (1 : ℝ) ++ [1]], 1024)] = 1 ∧
    keyqExtensionDSPKernel.analysisCycles (standInVDSP ℝ) CMath.real (runningKernel ℝ)
        [([List.replicate 1023 (1 : ℝ) ++ [1]], 1024)]
      ≠ deliveredFrames [([List.replicate 1023 (1 : ℝ) ++ [1]], 1024)] / (kFFTSize / 8) := by
  have hT : deliveredFrames [([List.replicate 1023 (1 : ℝ) ++ [1]], 1024)] = 1024 := by
    rw [deliveredFrames_cons]
    rfl
  have hdiv : deliveredFrames [([List.replicate 1023 (1 : ℝ) ++ [1]], 1024)]
      / (kFFTSize / 8) = 2 := by
    rw [hT]
    unfold kFFTSize
    omega
  have h0 : (runningKernel ℝ).mFramesSinceLastFFT = 0 := rfl
  have hge : ((runningKernel ℝ).mFramesSinceLastFFT + 1024) % 2 ^ 32 ≥ kFFTSize / 8 := by
    rw [h0]
    unfold kFFTSize
    omega
  have hrun : (runningKernel ℝ).runsAnalysis 1024 = true := by
    rw [runsAnalysis_eq _ _ rfl, decide_eq_true_iff]
    exact hge
  have hcyc : keyqExtensionDSPKernel.analysisCycles (standInVDSP ℝ) CMath.real
      (runningKernel ℝ) [([List.replicate 1023 (1 : ℝ) ++ [1]], 1024)] = 1 := by
    rw [analysisCycles_cons, hrun, if_pos rfl]
    rfl
  have htake : (List.replicate 1023 (1 : ℝ) ++ [1]).take 1024
      = List.replicate 1023 (1 : ℝ) ++ [1] :=
    List.take_of_length_le (by
      rw [List.length_append, List.length_replicate, List.length_singleton])
  have hproc := process_eq (standInVDSP ℝ) CMath.real (runningKernel ℝ)
    [List.replicate 1023 (1 : ℝ) ++ [1]] 1024 rfl
  rw [if_pos hge, List.headD_cons, htake] at hproc
  have hcount := process_counter (standInVDSP ℝ) CMath.real (runningKernel ℝ)
    [List.replicate 1023 (1 : ℝ) ++ [1]] 1024 rfl
  rw [if_pos hge] at hcount
  have hlen : (runningKernel ℝ).mCircularBuffer.length = kFFTSize := resize_length _ _ _
  have hidx : (runningKernel ℝ).mCircularBufferWriteIndex < kFFTSize := by
    have hz : (runningKernel ℝ).mCircularBufferWriteIndex = 0 := rfl
    rw [hz]
    unfold kFFTSize
    omega
  have hnew := foldl_pushSample_newest (List.replicate 1023 (1 : ℝ)) 1 (runningKernel ℝ)
    hlen hidx
  have hP := foldl_pushSample_eq (List.replicate 1023 (1 : ℝ) ++ [1]) (runningKernel ℝ)
  have hbefore : (runningKernel ℝ).mFFTInputBuffer.getD 4095 0 = 0 := by
    apply getD_eq_zero
    intro x hx
    have hx2 : x ∈ resize ([] : List ℝ) kFFTSize 0 := hx
    unfold resize at hx2
    rw [List.take_nil, List.nil_append] at hx2
    exact (List.mem_replicate.mp hx2).2
  have hafter : (keyqExtensionDSPKernel.processAll (standInVDSP ℝ) CMath.real
      (runningKernel ℝ)
      [([List.replicate 1023 (1 : ℝ) ++ [1]], 1024)]).mFFTInputBuffer.getD 4095 0 = 1 := by
    rw [processAll_single, hproc]
    generalize (List.replicate 1023 (1 : ℝ) ++ [1]).foldl
      keyqExtensionDSPKernel.pushSample (runningKernel ℝ) = P at hnew hP
    have hs : ({ P with mFramesSinceLastFFT := 0 } : keyqExtensionDSPKernel ℝ).mFFTSetup
        = true := by
      show P.mFFTSetup = true
      rw [hP]
      rfl
    have hwP : P.mWindow = (runningKernel ℝ).mWindow := by rw [hP]
    have hw : P.mWindow.getD 4095 0 = 1 := by
      rw [hwP]
      exact runningKernel_window_getD ℝ 4095 (by unfold kFFTSize; omega)
    show (keyqExtensionDSPKernel.performFFT (standInVDSP ℝ) CMath.real
      { P with mFramesSinceLastFFT := 0 }).mFFTInputBuffer.getD 4095 0 = 1
    rw [performFFT_input_getD _ _ _ hs 4095 (by unfold kFFTSize; omega)]
    show P.mCircularBuffer.getD ((P.mCircularBufferWriteIndex + 4095) % kFFTSize) 0
      * P.mWindow.getD 4095 0 = 1
    rw [hw, mul_one]
    exact hnew
  refine ⟨rfl, hT, hdiv, ?_, ?_, hbefore, hafter, hcyc, ?_⟩
  · rw [processAll_single]
    exact hproc
  · rw [processAll_single]
    exact hcount
  · rw [hcyc, hdiv]
    omega

end CadenceClaims

/-! ## The decibel floor -/

section DecibelLemmas

variable {α : Type} [LinearOrderedField α]

theorem performFFT_magnitudes (v : VDSP α) (cm : CMath α) (k : keyqExtensionDSPKernel α)
    (hs : k.mFFTSetup = true) :
    (k.performFFT v cm).mFFTMagnitudes = (k.scaledMagnitudes v).map (decibels cm) := by
  unfold keyqExtensionDSPKernel.performFFT keyqExtensionDSPKernel.scaledMagnitudes decibels
  rw [if_neg (by simp [hs])]

theorem forall_mem_map_range {β : Type} [Zero β] (f : Nat → β) (n : Nat) (h : ∀ i, f i = 0) :
    ∀ y ∈ (List.range n).map f, y = 0 := by
  intro y hy
  obtain ⟨i, -, rfl⟩ := List.mem_map.mp hy
  exact h i

theorem forall_mem_overwrite {β : Type} [Zero β] (dst src : List β)
    (hsrc : ∀ y ∈ src, y = 0) (hdst : dst.length ≤ src.length) :
    ∀ y ∈ overwrite dst src, y = 0 := by
  intro y hy
  unfold overwrite at hy
  rw [List.drop_eq_nil_of_le hdst, List.append_nil] at hy
  exact hsrc y hy

theorem vDSP_ctoz_zero {β : Type} [Zero β] (c : List β) (n i : Nat) (h : ∀ x ∈ c, x = 0) :
    (vDSP_ctoz c n).1.getD i 0 = 0 ∧ (vDSP_ctoz c n).2.getD i 0 = 0 := by
  unfold vDSP_ctoz
  exact ⟨getD_eq_zero _ _
      (forall_mem_map_range (fun j => c.getD (2 * j) 0) n (fun j => getD_eq_zero _ _ h)),
    getD_eq_zero _ _
      (forall_mem_map_range (fun j => c.getD (2 * j + 1) 0) n (fun j => getD_eq_zero _ _ h))⟩

theorem overwrite_length {β : Type} (dst src : List β) (hdst : dst.length ≤ src.length) :
    (overwrite dst src).length = src.length := by
  unfold overwrite
  rw [List.drop_eq_nil_of_le hdst, List.append_nil]

theorem scaledMagnitudes_length (v : VDSP α) (k : keyqExtensionDSPKernel α)
    (hlen : k.mFFTMagnitudes.length ≤ kFFTSizeOver2) :
    (k.scaledMagnitudes v).length = kFFTSizeOver2 := by
  unfold keyqExtensionDSPKernel.scaledMagnitudes
  simp only
  have h1 : ∀ z : List α × List α, (vDSP_zvmags z kFFTSizeOver2).length = kFFTSizeOver2 := by
    intro z
    simp [vDSP_zvmags]
  have h2 : ∀ (a : List α) (b : α), (vDSP_vsmul a b kFFTSizeOver2).length = kFFTSizeOver2 := by
    intro a b
    simp [vDSP_vsmul]
  generalize v.vDSP_fft_zrip k.mLog2N _ = z
  have h3 := overwrite_length k.mFFTMagnitudes (vDSP_zvmags z kFFTSizeOver2)
    (by rw [h1]; exact hlen)
  rw [overwrite_length _ _ (by rw [h2, h3, h1]), h2]

/-- The stand-in transform of the all-zero buffer gives all-zero scaled magnitudes. -/
theorem runningKernel_scaled_zero (α : Type) [LinearOrderedField α] :
    ∀ y ∈ (runningKernel α).scaledMagnitudes (standInVDSP α), y = 0 := by
  have hbuf : ∀ x ∈ (runningKernel α).mCircularBuffer, x = 0 := by
    intro x hx
    have hx2 : x ∈ resize ([] : List α) kFFTSize 0 := hx
    unfold resize at hx2
    rw [List.take_nil, List.nil_append] at hx2
    exact (List.mem_replicate.mp hx2).2
  have hlen : (runningKernel α).mFFTMagnitudes.length = kFFTSizeOver2 :=
    resize_length _ _ _
  unfold keyqExtensionDSPKernel.scaledMagnitudes
  simp only
  have hin := forall_mem_map_range
    (fun i => (runningKernel α).mCircularBuffer.getD ((runningKernel α).readIndex i) 0
      * (runningKernel α).mWindow.getD i 0) kFFTSize
    (fun i => by
      show (runningKernel α).mCircularBuffer.getD _ 0 * _ = 0
      rw [getD_eq_zero _ _ hbuf, zero_mul])
  generalize (List.range kFFTSize).map
    (fun i => (runningKernel α).mCircularBuffer.getD ((runningKernel α).readIndex i) 0
      * (runningKernel α).mWindow.getD i 0) = input at hin
  have hz : ∀ y ∈ vDSP_zvmags ((standInVDSP α).vDSP_fft_zrip (runningKernel α).mLog2N
      (vDSP_ctoz input kFFTSizeOver2)) kFFTSizeOver2, y = 0 := by
    apply forall_mem_map_range
    intro i
    show (vDSP_ctoz input kFFTSizeOver2).1.getD i 0 * (vDSP_ctoz input kFFTSizeOver2).1.getD i 0
      + (vDSP_ctoz input kFFTSizeOver2).2.getD i 0 * (vDSP_ctoz input kFFTSizeOver2).2.getD i 0
      = 0
    rw [(vDSP_ctoz_zero input kFFTSizeOver2 i hin).1, (vDSP_ctoz_zero input kFFTSizeOver2 i hin).2,
      zero_mul, add_zero]
  have hzl : (vDSP_zvmags ((standInVDSP α).vDSP_fft_zrip (runningKernel α).mLog2N
      (vDSP_ctoz input kFFTSizeOver2)) kFFTSizeOver2).length = kFFTSizeOver2 := by
    simp [vDSP_zvmags]
  generalize vDSP_zvmags ((standInVDSP α).vDSP_fft_zrip (runningKernel α).mLog2N
      (vDSP_ctoz input kFFTSizeOver2)) kFFTSizeOver2 = zv at hz hzl
  have hm := forall_mem_overwrite (runningKernel α).mFFTMagnitudes zv hz
    (by rw [hlen, hzl])
  have hml := overwrite_length (runningKernel α).mFFTMagnitudes zv (by rw [hlen, hzl])
  rw [hzl] at hml
  generalize overwrite (runningKernel α).mFFTMagnitudes zv = mags at hm hml
  apply forall_mem_overwrite
  · apply forall_mem_map_range
    intro i
    show mags.getD i 0 * _ = 0
    rw [getD_eq_zero _ _ hm, zero_mul]
  · rw [hml]
    simp [vDSP_vsmul]

end DecibelLemmas

theorem logb_ten_floor : Real.logb 10 (1 / 100000000 : ℝ) = -8 := by
  have h : (1 / 100000000 : ℝ) = (10 : ℝ) ^ (-8 : ℝ) := by
    rw [Real.rpow_neg (by norm_num)]
    norm_num
  rw [h, Real.logb_rpow (by norm_num) (by norm_num)]

theorem decibels_real_ge (x : ℝ) : decibels CMath.real x ≥ -160 := by
  unfold decibels
  simp only [CMath.real]
  have h1 : (1 / 100000000 : ℝ) ≤ max x (1 / 100000000) := le_max_right _ _
  have h2 : Real.logb 10 (1 / 100000000 : ℝ) ≤ Real.logb 10 (max x (1 / 100000000)) :=
    Real.logb_le_logb_of_le (by norm_num) (by norm_num) h1
  rw [logb_ten_floor] at h2
  linarith

theorem decibels_real_zero : decibels CMath.real 0 = -160 := by
  unfold decibels
  simp only [CMath.real]
  rw [max_eq_right (by norm_num), logb_ten_floor]
  norm_num

/-- C15: over the reals the conversion `d x = 20 * log10 (max x 1e-8)` applied to a
scaled squared magnitude `x ≥ 0` takes the logarithm of a positive number and yields
`d x ≥ -160`, and `d 0 = -160`. Consequently, when every scaled magnitude that
`performFFT` computes is 0 (the transform of an all-zero window), every value of the
spectrum that it leaves is -160 dB and `detectPeaks` returns the empty peak list. -/
theorem silence_floor (x : ℝ) (hx : 0 ≤ x) (v : VDSP ℝ) (k : keyqExtensionDSPKernel ℝ)
    (hs : k.mFFTSetup = true) (hlen : k.mFFTMagnitudes.length ≤ kFFTSizeOver2)
    (hz : ∀ y ∈ k.scaledMagnitudes v, y = 0) :
    0 < max x (1 / 100000000) ∧
    decibels CMath.real x = 20 * Real.logb 10 (max x (1 / 100000000)) ∧
    decibels CMath.real x ≥ -160 ∧
    decibels CMath.real 0 = -160 ∧
    (k.performFFT v CMath.real).mFFTMagnitudes = List.replicate kFFTSizeOver2 (-160) ∧
    ((k.performFFT v CMath.real).detectPeaks CMath.real).mDetectedPeaks = [] := by
  have hm : (k.performFFT v CMath.real).mFFTMagnitudes
      = List.replicate kFFTSizeOver2 (-160) := by
    rw [performFFT_magnitudes v CMath.real k hs, List.eq_replicate_iff, List.length_map,
      scaledMagnitudes_length v k hlen]
    refine ⟨rfl, ?_⟩
    intro b hb
    obtain ⟨y, hy, rfl⟩ := List.mem_map.mp hb
    rw [hz y hy, decibels_real_zero]
  refine ⟨lt_of_lt_of_le (by norm_num) (le_max_right _ _), rfl, decibels_real_ge x,
    decibels_real_zero, hm, detectPeaks_silent CMath.real _ hm⟩

/-- Witness of `silence_floor`: an initialised kernel whose buffer holds 4096 zeros,
with the stand-in transform. -/
theorem silence_floor_witness :
    (0 : ℝ) ≤ 1 ∧ (runningKernel ℝ).mFFTSetup = true ∧
    (runningKernel ℝ).mFFTMagnitudes.length ≤ kFFTSizeOver2 ∧
    (∀ y ∈ (runningKernel ℝ).scaledMagnitudes (standInVDSP ℝ), y = 0) ∧
    (((runningKernel ℝ).performFFT (standInVDSP ℝ) CMath.real).detectPeaks
      CMath.real).mDetectedPeaks = [] :=
  ⟨by norm_num, rfl, Nat.le_of_eq (resize_length _ _ _), runningKernel_scaled_zero ℝ,
    (silence_floor 1 (by norm_num) (standInVDSP ℝ) (runningKernel ℝ) rfl
      (Nat.le_of_eq (resize_length _ _ _)) (runningKernel_scaled_zero ℝ)).2.2.2.2.2⟩

/-! ## Flat plateaus -/

section PlateauLemmas

variable {α : Type} [LinearOrderedField α]

theorem plateau_getD (first width i : Nat) (hi : i < kFFTSizeOver2) :
    (plateauKernel α first width).mFFTMagnitudes.getD i 0
      = if first ≤ i ∧ i < first + width then -6 else -160 := by
  unfold plateauKernel
  simp only
  rw [List.getD_eq_getElem?_getD, List.getElem?_map, List.getElem?_range hi]
  rfl

theorem plateau_band (first width i : Nat) (h2 : 2 ≤ i) (h3 : i ≤ 1521) :
    20 ≤ (plateauKernel α first width).binFrequency i ∧
    (plateauKernel α first width).binFrequency i ≤ 16384 := by
  have c2 : (2 : α) ≤ (i : α) := by exact_mod_cast h2
  have c3 : (i : α) ≤ 1521 := by exact_mod_cast h3
  have hs : (plateauKernel α first width).mSampleRate = 44100 := rfl
  unfold keyqExtensionDSPKernel.binFrequency
  rw [hs]
  unfold kFFTSize
  constructor
  · rw [le_div_iff₀ (by norm_num)]
    push_cast
    linarith
  · rw [div_le_iff₀ (by norm_num)]
    push_cast
    linarith

theorem plateau_card_le (first width : Nat) :
    (plateauKernel α first width).qualifyingBins.card ≤ width := by
  have hsub : (plateauKernel α first width).qualifyingBins
      ⊆ Finset.Ico first (first + width) := by
    intro i hi
    rw [mem_qualifyingBins] at hi
    rw [Finset.mem_Ico]
    have h := hi.2.1
    rw [plateau_getD first width i (by have := hi.1.2; omega)] at h
    by_contra hne
    rw [if_neg hne] at h
    unfold kPeakThresholdDB at h
    norm_num at h
  have hc := Finset.card_le_card hsub
  rw [Nat.card_Ico] at hc
  omega

end PlateauLemmas

section PlateauClaims

variable {α : Type} [LinearOrderedField α] [FloorRing α]

/-- C16: when the spectrum holds one and the same magnitude `c > -30` dB in the
`w ≥ 3` adjacent bins `a, ..., a + w - 1`, the two bins bordering the run are no higher
than `c`, the run lies inside the bins visited by the loop (3 to 2046) and inside the
audible band, and fewer than `kMaxPeaks` bins qualify in total, then `detectPeaks`
reports every bin of the run as a peak of its own, so that the peak list contains
peaks with adjacent bin indices. -/
theorem plateau_not_deduplicated (cm : CMath α) (k : keyqExtensionDSPKernel α)
    (a w : Nat) (c : α) (hw : 3 ≤ w)
    (hflat : ∀ i, a ≤ i → i < a + w → k.mFFTMagnitudes.getD i 0 = c)
    (hc : c > -30)
    (hleft : k.mFFTMagnitudes.getD (a - 1) 0 ≤ c)
    (hright : k.mFFTMagnitudes.getD (a + w) 0 ≤ c)
    (hlo : kMinBin + 1 ≤ a) (hhi : a + w ≤ kFFTSizeOver2 - 1)
    (hband : ∀ i, a ≤ i → i < a + w → 20 ≤ k.binFrequency i ∧ k.binFrequency i ≤ 16384)
    (hK : k.qualifyingBins.card < kMaxPeaks) :
    (∀ i, a ≤ i → i < a + w →
      ∃ p ∈ (k.detectPeaks cm).mDetectedPeaks, p.binIndex = i ∧ p.magnitude = c) ∧
    (∃ p ∈ (k.detectPeaks cm).mDetectedPeaks, ∃ q ∈ (k.detectPeaks cm).mDetectedPeaks,
      q.binIndex = p.binIndex + 1) := by
  have hall : ∀ i, a ≤ i → i < a + w →
      ∃ p ∈ (k.detectPeaks cm).mDetectedPeaks, p.binIndex = i ∧ p.magnitude = c := by
    intro i h1 h2
    have hq : k.qualifies i := by
      refine ⟨?_, ?_, ?_, (hband i h1 h2).1, (hband i h1 h2).2⟩
      · rw [hflat i h1 h2]
        exact hc
      · rw [hflat i h1 h2]
        by_cases ha : i = a
        · rw [ha]
          exact hleft
        · rw [hflat (i - 1) (by omega) (by omega)]
      · rw [hflat i h1 h2]
        by_cases hb : i + 1 = a + w
        · rw [hb]
          exact hright
        · rw [hflat (i + 1) (by omega) (by omega)]
    have hi : i ∈ k.qualifyingBins :=
      (mem_qualifyingBins k i).mpr ⟨⟨by omega, by omega⟩, hq⟩
    exact ⟨k.peakOfBin cm i, peakOfBin_mem_detectPeaks cm k i hi (Nat.le_of_lt hK), rfl,
      hflat i h1 h2⟩
  refine ⟨hall, ?_⟩
  obtain ⟨p, hp, hpi, -⟩ := hall a (le_refl a) (by omega)
  obtain ⟨q, hq, hqi, -⟩ := hall (a + 1) (by omega) (by omega)
  exact ⟨p, hp, q, hq, by rw [hqi, hpi]⟩

/-- Witness of `plateau_not_deduplicated`: a plateau of -6 dB over the bins 100, 101
and 102 at 44100 Hz. -/
theorem plateau_not_deduplicated_witness :
    (∀ i, 100 ≤ i → i < 100 + 3 → (plateauKernel ℝ 100 3).mFFTMagnitudes.getD i 0 = -6) ∧
    (plateauKernel ℝ 100 3).mFFTMagnitudes.getD (100 - 1) 0 ≤ -6 ∧
    (plateauKernel ℝ 100 3).mFFTMagnitudes.getD (100 + 3) 0 ≤ -6 ∧
    (plateauKernel ℝ 100 3).qualifyingBins.card < kMaxPeaks ∧
    ∀ i, 100 ≤ i → i < 100 + 3 →
      ∃ p ∈ ((plateauKernel ℝ 100 3).detectPeaks CMath.real).mDetectedPeaks,
        p.binIndex = i ∧ p.magnitude = -6 :=
  have hflat : ∀ i, 100 ≤ i → i < 100 + 3 →
      (plateauKernel ℝ 100 3).mFFTMagnitudes.getD i 0 = -6 := fun i h1 h2 => by
    rw [plateau_getD 100 3 i (by unfold kFFTSizeOver2 kFFTSize; omega), if_pos ⟨h1, h2⟩]
  have hleft : (plateauKernel ℝ 100 3).mFFTMagnitudes.getD (100 - 1) 0 ≤ -6 := by
    rw [plateau_getD 100 3 _ (by unfold kFFTSizeOver2 kFFTSize; omega), if_neg (by omega)]
    norm_num
  have hright : (plateauKernel ℝ 100 3).mFFTMagnitudes.getD (100 + 3) 0 ≤ -6 := by
    rw [plateau_getD 100 3 _ (by unfold kFFTSizeOver2 kFFTSize; omega), if_neg (by omega)]
    norm_num
  have hK : (plateauKernel ℝ 100 3).qualifyingBins.card < kMaxPeaks :=
    lt_of_le_of_lt (plateau_card_le 100 3) (by unfold kMaxPeaks; omega)
  ⟨hflat, hleft, hright, hK,
    (plateau_not_deduplicated CMath.real (plateauKernel ℝ 100 3) 100 3 (-6) (le_refl 3)
      hflat (by norm_num) hleft hright (by unfold kMinBin; omega)
      (by unfold kFFTSizeOver2 kFFTSize; omega)
      (fun i h1 h2 => plateau_band 100 3 i (by omega) (by omega)) hK).1⟩

end PlateauClaims

/-! ## The range of the detected notes -/

theorem le_toInt_stdRound (z : Int) (x : ℝ) (hx : 0 ≤ x) (h : (z : ℝ) ≤ x) :
    z ≤ toInt (stdRound x) := by
  rw [toInt_stdRound, if_pos hx, Int.le_floor]
  linarith

theorem logb_two_32 : Real.logb 2 (32 : ℝ) = 5 := by
  have h : (32 : ℝ) = (2 : ℝ) ^ 5 := by norm_num
  rw [h, Real.logb_pow, Real.logb_self_eq_one (by norm_num)]
  norm_num

theorem logb_two_22_le : Real.logb 2 (22 : ℝ) ≤ 9 / 2 := by
  have h1 : Real.logb 2 ((22 : ℝ) ^ 2) = (2 : ℕ) * Real.logb 2 22 := Real.logb_pow 2 22 2
  have h2 : Real.logb 2 ((2 : ℝ) ^ 9) = (9 : ℕ) * Real.logb 2 2 := Real.logb_pow 2 2 9
  rw [Real.logb_self_eq_one (by norm_num)] at h2
  have h3 : Real.logb 2 ((22 : ℝ) ^ 2) ≤ Real.logb 2 ((2 : ℝ) ^ 9) :=
    Real.logb_le_logb_of_le (by norm_num) (by norm_num) (by norm_num)
  rw [h1, h2] at h3
  push_cast at h3
  linarith

/-- From 14080 Hz on the fractional note number is at least 129. -/
theorem frequencyToMidi_high (f : ℝ) (hf : 14080 ≤ f) :
    129 ≤ MusicNote.frequencyToMidi CMath.real f 440 := by
  unfold MusicNote.frequencyToMidi
  simp only [CMath.real]
  have h1 : (32 : ℝ) ≤ f / 440 := by
    rw [le_div_iff₀ (by norm_num)]
    linarith
  have h2 := Real.logb_le_logb_of_le (b := 2) (by norm_num) (by norm_num) h1
  rw [logb_two_32] at h2
  linarith

/-- From 20 Hz on the fractional note number is at least 15. -/
theorem frequencyToMidi_audible (f : ℝ) (hf : 20 ≤ f) :
    15 ≤ MusicNote.frequencyToMidi CMath.real f 440 := by
  unfold MusicNote.frequencyToMidi
  simp only [CMath.real]
  have h1 : (22 : ℝ)⁻¹ ≤ f / 440 := by
    rw [le_div_iff₀ (by norm_num)]
    norm_num
    linarith
  have h2 := Real.logb_le_logb_of_le (b := 2) (by norm_num) (by norm_num) h1
  rw [Real.logb_inv] at h2
  have h3 := logb_two_22_le
  linarith

theorem midiNote_ge_of_le (z : Int) (f mag : ℝ) (hz : 0 ≤ z)
    (h : (z : ℝ) ≤ MusicNote.frequencyToMidi CMath.real f 440) :
    z ≤ (MusicNote.fromFrequency CMath.real f mag 440).midiNote := by
  have h0 : (0 : ℝ) ≤ (z : ℝ) := by exact_mod_cast hz
  exact le_toInt_stdRound z _ (le_trans h0 h) h

theorem floor_intCast_div_twelve (n : Int) : ⌊(n : ℝ) / 12⌋ = n / 12 := by
  rw [Int.floor_eq_iff]
  have h1 : 12 * (n / 12) ≤ n := by omega
  have h2 : n < 12 * (n / 12) + 12 := by omega
  have c1 : (12 : ℝ) * ((n / 12 : Int) : ℝ) ≤ (n : ℝ) := by exact_mod_cast h1
  have c2 : (n : ℝ) < 12 * ((n / 12 : Int) : ℝ) + 12 := by exact_mod_cast h2
  constructor
  · rw [le_div_iff₀ (by norm_num)]
    linarith
  · rw [div_lt_iff₀ (by norm_num)]
    linarith

theorem noteName_isSome {α : Type} (note : MusicNote α) (h0 : 0 ≤ note.noteIndex)
    (h1 : note.noteIndex ≤ 11) : ∃ name, note.noteName = some name := by
  unfold MusicNote.noteName
  rw [if_pos h0]
  have hlen : note.noteIndex.toNat < noteNames.length := by
    have : noteNames.length = 12 := rfl
    omega
  rw [List.getElem?_eq_getElem hlen]
  exact ⟨_, rfl⟩

/-- C17: the claim fails on the code. At 14080 Hz, inside the audible band, with the
reference 440 Hz the fractional note number is exactly 129 and `fromFrequency` returns
`midiNote = 129`; and `detectPeaks` itself returns such a note: for a single line in
bin 1521 at 44100 Hz (16376 Hz) the peak is reported with a frequency in the band and a
`midiNote` above 127. -/
theorem midiNote_above_midi_range :
    (20 : ℝ) ≤ 14080 ∧ (14080 : ℝ) ≤ 16384 ∧
    (MusicNote.fromFrequency CMath.real 14080 0 440).midiNote = 129 ∧
    ∃ p ∈ ((singleLineKernel ℝ 1521).detectPeaks CMath.real).mDetectedPeaks,
      p.binIndex = 1521 ∧ 20 ≤ p.frequency ∧ p.frequency ≤ 16384 ∧
      127 < p.note.midiNote := by
  have hm : MusicNote.frequencyToMidi CMath.real 14080 440 = ((129 : Int) : ℝ) := by
    unfold MusicNote.frequencyToMidi
    simp only [CMath.real]
    rw [show ((14080 : ℝ) / 440) = 32 by norm_num, logb_two_32]
    norm_num
  have hq := singleLine_qualifies (α := ℝ) 1521 (by omega) (by omega)
  have hin : (singleLineKernel ℝ 1521).peakOfBin CMath.real 1521
      ∈ ((singleLineKernel ℝ 1521).detectPeaks CMath.real).mDetectedPeaks :=
    peakOfBin_mem_detectPeaks CMath.real _ 1521
      ((mem_qualifyingBins _ 1521).mpr
        ⟨by unfold kMinBin kFFTSizeOver2 kFFTSize; omega, hq⟩)
      ((singleLine_card_le 1521).trans (by unfold kMaxPeaks; omega))
  refine ⟨by norm_num, by norm_num, ?_, _, hin, rfl, hq.2.2.2.1, hq.2.2.2.2, ?_⟩
  · simp only [MusicNote.fromFrequency, hm]
    exact toInt_stdRound_intCast 129
  · have hf : (14080 : ℝ) ≤ (singleLineKernel ℝ 1521).binFrequency 1521 := by
      have hs : (singleLineKernel ℝ 1521).mSampleRate = 44100 := rfl
      unfold keyqExtensionDSPKernel.binFrequency
      rw [hs]
      unfold kFFTSize
      norm_num
    have h129 : (129 : Int) ≤ ((singleLineKernel ℝ 1521).peakOfBin CMath.real 1521).note.midiNote :=
      midiNote_ge_of_le 129 _ _ (by omega)
        (by exact_mod_cast frequencyToMidi_high _ hf)
    omega

/-- C18: over the reals, every peak that `detectPeaks` returns (frequency at least
20 Hz, reference 440 Hz) has `note.midiNote ≥ 15`; hence `note.noteIndex` lies in
`0..11` and equals the mathematical `midiNote mod 12`, `note.octave` is at least 0 and
equals `floor (midiNote / 12) - 1`, and the lookup of `noteName` is inside the table. -/
theorem detected_notes_not_negative (k : keyqExtensionDSPKernel ℝ) (p : DetectedPeak ℝ)
    (hp : p ∈ (k.detectPeaks CMath.real).mDetectedPeaks) :
    15 ≤ p.note.midiNote ∧
    0 ≤ p.note.noteIndex ∧ p.note.noteIndex ≤ 11 ∧
    p.note.noteIndex = p.note.midiNote % 12 ∧
    0 ≤ p.note.octave ∧
    p.note.octave = ⌊(p.note.midiNote : ℝ) / 12⌋ - 1 ∧
    p.note.noteIndex.toNat < noteNames.length ∧
    ∃ name, p.note.noteName = some name := by
  obtain ⟨i, hi, rfl⟩ := mem_detectPeaks CMath.real k p hp
  rw [mem_qualifyingBins] at hi
  have hf : (20 : ℝ) ≤ k.binFrequency i := hi.2.2.2.2.1
  have h15 : (15 : Int) ≤ (k.peakOfBin CMath.real i).note.midiNote :=
    midiNote_ge_of_le 15 _ _ (by omega) (by exact_mod_cast frequencyToMidi_audible _ hf)
  have hidx : (k.peakOfBin CMath.real i).note.noteIndex
      = Int.tmod (k.peakOfBin CMath.real i).note.midiNote 12 := rfl
  have hoct : (k.peakOfBin CMath.real i).note.octave
      = Int.tdiv (k.peakOfBin CMath.real i).note.midiNote 12 - 1 := rfl
  generalize (k.peakOfBin CMath.real i).note = note at h15 hidx hoct
  rw [Int.tmod_eq_emod (by omega) (by omega)] at hidx
  rw [Int.tdiv_eq_ediv (by omega) (by omega)] at hoct
  have h0 : 0 ≤ note.noteIndex := by omega
  have h11 : note.noteIndex ≤ 11 := by omega
  refine ⟨h15, h0, h11, hidx, by omega, ?_, ?_, noteName_isSome note h0 h11⟩
  · rw [floor_intCast_div_twelve, hoct]
  · have : noteNames.length = 12 := rfl
    omega

/-- Witness of `detected_notes_not_negative`: the peak of a single line in bin 41 at
44100 Hz. -/
theorem detected_notes_not_negative_witness :
    (singleLineKernel ℝ 41).peakOfBin CMath.real 41
      ∈ ((singleLineKernel ℝ 41).detectPeaks CMath.real).mDetectedPeaks ∧
    15 ≤ ((singleLineKernel ℝ 41).peakOfBin CMath.real 41).note.midiNote :=
  have hin : (singleLineKernel ℝ 41).peakOfBin CMath.real 41
      ∈ ((singleLineKernel ℝ 41).detectPeaks CMath.real).mDetectedPeaks :=
    peakOfBin_mem_detectPeaks CMath.real _ 41
      ((mem_qualifyingBins _ 41).mpr
        ⟨by unfold kMinBin kFFTSizeOver2 kFFTSize; omega,
          singleLine_qualifies 41 (by omega) (by omega)⟩)
      ((singleLine_card_le 41).trans (by unfold kMaxPeaks; omega))
  ⟨hin, (detected_notes_not_negative _ _ hin).1⟩

section BypassClaims

variable {α : Type} [LinearOrderedField α] [FloorRing α]

/-- C20: while the kernel is bypassed, a `process` call writes to every output channel
the first `frameCount` samples of the corresponding input channel, unchanged, and
returns the state as it was: the ring buffer, the write cursor, the counter of frames
since the last analysis, the spectrum and the peak list are unchanged; over any
sequence of calls no sample is pushed and no analysis cycle runs. -/
theorem bypass_freezes_analysis (v : VDSP α) (cm : CMath α) (k : keyqExtensionDSPKernel α)
    (inputBuffers : List (List α)) (frameCount : Nat) (hb : k.mBypassed = true) :
    (k.process v cm inputBuffers frameCount).2
      = inputBuffers.map (fun channel => channel.take frameCount) ∧
    (∀ channel : Nat, (k.process v cm inputBuffers frameCount).2[channel]?
      = (inputBuffers[channel]?).map (fun samples : List α => samples.take frameCount)) ∧
    (k.process v cm inputBuffers frameCount).1 = k ∧
    (k.process v cm inputBuffers frameCount).1.mCircularBuffer = k.mCircularBuffer ∧
    (k.process v cm inputBuffers frameCount).1.mCircularBufferWriteIndex
      = k.mCircularBufferWriteIndex ∧
    (k.process v cm inputBuffers frameCount).1.mFramesSinceLastFFT = k.mFramesSinceLastFFT ∧
    (k.process v cm inputBuffers frameCount).1.mFFTMagnitudes = k.mFFTMagnitudes ∧
    (k.process v cm inputBuffers frameCount).1.mDetectedPeaks = k.mDetectedPeaks ∧
    k.runsAnalysis frameCount = false ∧
    (∀ calls, k.processAll v cm calls = k ∧ k.analysisCycles v cm calls = 0) := by
  rw [process_bypassed v cm k _ _ hb]
  refine ⟨rfl, ?_, rfl, rfl, rfl, rfl, rfl, rfl, ?_, ?_⟩
  · intro channel
    exact List.getElem?_map _ _ _
  · simp [keyqExtensionDSPKernel.runsAnalysis, hb]
  · intro calls
    exact ⟨processAll_bypassed v cm k calls hb, analysisCycles_bypassed v cm k calls hb⟩

/-- Witness of `bypass_freezes_analysis`: a bypassed, newly constructed kernel and a
call with two channels of three frames. -/
theorem bypass_freezes_analysis_witness :
    (keyqExtensionDSPKernel.setBypass ({} : keyqExtensionDSPKernel ℝ) true).mBypassed = true ∧
    (keyqExtensionDSPKernel.process ⟨fun _ => true, fun _ _ => 1, fun _ z => z⟩ CMath.real
        (keyqExtensionDSPKernel.setBypass ({} : keyqExtensionDSPKernel ℝ) true)
        [[1, 2, 3], [4, 5, 6]] 3).2
      = [[1, 2, 3], [4, 5, 6]] :=
  ⟨rfl, (bypass_freezes_analysis _ _ _ [[1, 2, 3], [4, 5, 6]] 3 rfl).1⟩

end BypassClaims

/-! ## The sizes of the peak list and of the spectrum -/

section SizeLemmasBasic

variable {α : Type} [LinearOrderedField α]

theorem sized_lt (k : keyqExtensionDSPKernel α) (h : k.sized) :
    k.mDetectedPeaks.length < 2 ^ 32 ∧ k.mFFTMagnitudes.length < 2 ^ 32 := by
  have h1 := h.1
  have h2 := h.2
  unfold kMaxPeaks at h1
  unfold kFFTSizeOver2 kFFTSize at h2
  constructor <;> omega

theorem sized_new : ({} : keyqExtensionDSPKernel α).sized :=
  ⟨Nat.zero_le _, Nat.zero_le _⟩

theorem sized_initialize (v : VDSP α) (k : keyqExtensionDSPKernel α) (ic oc : Int) (sr : α)
    (h : k.sized) : ( keyqExtensionDSPKernel.initialize v k ic oc sr).sized :=
  ⟨h.1, Nat.le_of_eq (resize_length _ _ _)⟩

theorem sized_deInitialize (k : keyqExtensionDSPKernel α) (h : k.sized) :
    k.deInitialize.sized := by
  rw [deInitialize_eq]
  exact h

theorem sized_setBypass (k : keyqExtensionDSPKernel α) (shouldBypass : Bool) (h : k.sized) :
    (k.setBypass shouldBypass).sized := h

theorem performFFT_magnitudes_length (v : VDSP α) (cm : CMath α)
    (k : keyqExtensionDSPKernel α) (h : k.mFFTMagnitudes.length ≤ kFFTSizeOver2) :
    (k.performFFT v cm).mFFTMagnitudes.length ≤ kFFTSizeOver2 := by
  cases hs : k.mFFTSetup with
  | false =>
    rw [performFFT_without_setup v cm k hs]
    exact h
  | true =>
    rw [performFFT_magnitudes v cm k hs, List.length_map, scaledMagnitudes_length v k h]

end SizeLemmasBasic

section SizeLemmas

variable {α : Type} [LinearOrderedField α] [FloorRing α]

theorem detectPeaks_length_le (cm : CMath α) (k : keyqExtensionDSPKernel α) :
    (k.detectPeaks cm).mDetectedPeaks.length ≤ kMaxPeaks := by
  rw [detectPeaks_eq, List.length_take]
  exact Nat.min_le_left _ _

theorem sized_process (v : VDSP α) (cm : CMath α) (k : keyqExtensionDSPKernel α)
    (inputBuffers : List (List α)) (frameCount : Nat) (h : k.sized) :
    (k.process v cm inputBuffers frameCount).1.sized := by
  cases hb : k.mBypassed with
  | true =>
    rw [process_bypassed v cm k _ _ hb]
    exact h
  | false =>
    have hP := foldl_pushSample_eq ((inputBuffers.headD []).take frameCount) k
    rw [process_eq v cm k inputBuffers frameCount hb]
    generalize ((inputBuffers.headD []).take frameCount).foldl
      keyqExtensionDSPKernel.pushSample k = P at hP
    have h2 : P.mFFTMagnitudes = k.mFFTMagnitudes := by rw [hP]
    have h4 : P.mDetectedPeaks = k.mDetectedPeaks := by rw [hP]
    split
    · refine ⟨detectPeaks_length_le cm _, ?_⟩
      rw [(detectPeaks_frame cm _).2.1]
      apply performFFT_magnitudes_length
      exact (Nat.le_of_eq (congrArg List.length h2)).trans h.2
    · exact ⟨(Nat.le_of_eq (congrArg List.length h4)).trans h.1,
        (Nat.le_of_eq (congrArg List.length h2)).trans h.2⟩

end SizeLemmas

/-! ## The query surface -/

section GetterClaims

variable {α : Type} [LinearOrderedField α]

/-- C11: in every kernel state whose peak list and spectrum have sizes that fit the
`UInt32` result of the count getters (every state that the kernel reaches: at most
10 peaks and 2048 bins), for an index at or beyond `getPeakCount` each of the six
peak getters returns 0 and for an index at or beyond `getFFTMagnitudesCount`
`getFFTMagnitude` returns 0; for an index below the count the getters return the
fields of the stored peak, respectively the stored bin value. The getters are
`const` methods: functions of the state that return a value and no new state. -/
theorem getters_out_of_range (k : keyqExtensionDSPKernel α) (index : Nat)
    (hp : k.mDetectedPeaks.length < 2 ^ 32) (hm : k.mFFTMagnitudes.length < 2 ^ 32) :
    (k.getPeakCount ≤ index →
      k.getPeakFrequency index = 0 ∧ k.getPeakMagnitude index = 0 ∧
      k.getPeakMidiNote index = 0 ∧ k.getPeakNoteIndex index = 0 ∧
      k.getPeakOctave index = 0 ∧ k.getPeakCents index = 0) ∧
    (k.getFFTMagnitudesCount ≤ index → k.getFFTMagnitude index = 0) ∧
    (index < k.getPeakCount →
      ∃ p, k.mDetectedPeaks[index]? = some p ∧
        k.getPeakFrequency index = p.frequency ∧ k.getPeakMagnitude index = p.magnitude ∧
        k.getPeakMidiNote index = p.note.midiNote ∧
        k.getPeakNoteIndex index = p.note.noteIndex ∧
        k.getPeakOctave index = p.note.octave ∧
        k.getPeakCents index = p.note.centsDeviation) ∧
    (index < k.getFFTMagnitudesCount →
      ∃ x, k.mFFTMagnitudes[index]? = some x ∧ k.getFFTMagnitude index = x) := by
  have cp : k.getPeakCount = k.mDetectedPeaks.length := Nat.mod_eq_of_lt hp
  have cm : k.getFFTMagnitudesCount = k.mFFTMagnitudes.length := Nat.mod_eq_of_lt hm
  rw [cp, cm]
  refine ⟨?_, ?_, ?_, ?_⟩
  · intro h
    have hn : ¬ index < k.mDetectedPeaks.length := Nat.not_lt.mpr h
    simp only [keyqExtensionDSPKernel.getPeakFrequency, keyqExtensionDSPKernel.getPeakMagnitude,
      keyqExtensionDSPKernel.getPeakMidiNote, keyqExtensionDSPKernel.getPeakNoteIndex,
      keyqExtensionDSPKernel.getPeakOctave, keyqExtensionDSPKernel.getPeakCents, dif_neg hn,
      and_self]
  · intro h
    have hn : ¬ index < k.mFFTMagnitudes.length := Nat.not_lt.mpr h
    simp only [keyqExtensionDSPKernel.getFFTMagnitude, dif_neg hn]
  · intro h
    refine ⟨k.mDetectedPeaks[index], List.getElem?_eq_getElem h, ?_⟩
    simp only [keyqExtensionDSPKernel.getPeakFrequency, keyqExtensionDSPKernel.getPeakMagnitude,
      keyqExtensionDSPKernel.getPeakMidiNote, keyqExtensionDSPKernel.getPeakNoteIndex,
      keyqExtensionDSPKernel.getPeakOctave, keyqExtensionDSPKernel.getPeakCents, dif_pos h,
      and_self]
  · intro h
    refine ⟨k.mFFTMagnitudes[index], List.getElem?_eq_getElem h, ?_⟩
    simp only [keyqExtensionDSPKernel.getFFTMagnitude, dif_pos h]

/-- Witness of `getters_out_of_range`: the state after `detectPeaks` on a single line
in bin 41, queried at index 7. -/
theorem getters_out_of_range_witness :
    ((singleLineKernel ℝ 41).detectPeaks CMath.real).mDetectedPeaks.length < 2 ^ 32 ∧
    ((singleLineKernel ℝ 41).detectPeaks CMath.real).mFFTMagnitudes.length < 2 ^ 32 ∧
    (((singleLineKernel ℝ 41).detectPeaks CMath.real).getFFTMagnitudesCount ≤ 7 →
      ((singleLineKernel ℝ 41).detectPeaks CMath.real).getFFTMagnitude 7 = 0) :=
  have hp : ((singleLineKernel ℝ 41).detectPeaks CMath.real).mDetectedPeaks.length < 2 ^ 32 :=
    lt_of_le_of_lt (detectPeaks_length_le CMath.real _) (by unfold kMaxPeaks; omega)
  have hm : ((singleLineKernel ℝ 41).detectPeaks CMath.real).mFFTMagnitudes.length < 2 ^ 32 := by
    rw [(detectPeaks_frame CMath.real _).2.1, singleLine_length]
    unfold kFFTSizeOver2 kFFTSize
    omega
  ⟨hp, hm, (getters_out_of_range _ 7 hp hm).2.1⟩

end GetterClaims

end Keyq
